import Mathlib

/- Shallow embedding of the HAM-and-Bacon graph core (graph_entities.py and
graph_create.py).  Python dictionaries become association lists, Python sets
become membership lists, floats become rationals (the code only compares and
increments them), and the two exception kinds the code raises (ValueError,
KeyError) become the PyErr type carried in Except.  Python's
`_Vertex.neighbours` stores references to vertex objects; since the graph API
keys every vertex object uniquely by its item, neighbours are stored here as
the items of those vertices.  The BFS while-loops become fuel-indexed
recursions returning Option; `none` marks fuel exhaustion or a lookup of a
dangling vertex, and both are proved unreachable for well-formed graphs. -/

inductive PyErr where
  | valueError : PyErr
  | keyError : PyErr
deriving DecidableEq, Repr

/-- Association-list lookup, modelling Python dict access. -/
def alookup {α : Type} (k : String) : List (String × α) → Option α
  | [] => none
  | e :: es => if e.1 = k then some e.2 else alookup k es

/-- Model of _Vertex from graph_entities.py. -/
structure Vertex where
  item : String
  kind : String
  neighbours : List String
  appearances : List String
  sim_score : Rat
  movie_info : Rat × Rat × Rat
deriving DecidableEq, Repr

/-- Model of Graph from graph_entities.py: the `_vertices` dict keyed by item. -/
structure Graph where
  vertices : List Vertex
deriving DecidableEq, Repr

namespace Graph

def empty : Graph := ⟨[]⟩

/-- Dict lookup `self._vertices[item]` / membership `item in self._vertices`. -/
def findV (g : Graph) (item : String) : Option Vertex :=
  g.vertices.find? (fun vx => vx.item == item)

/-- Replace the vertex stored under `item` by `f` of it (in-place mutation). -/
def update (g : Graph) (item : String) (f : Vertex → Vertex) : Graph :=
  ⟨g.vertices.map (fun vx => if vx.item = item then f vx else vx)⟩

def keys (g : Graph) : List String := g.vertices.map Vertex.item

/-- Graph.add_vertex: no-op when the item is already present. -/
def add_vertex (g : Graph) (item kind : String) : Graph :=
  if (g.findV item).isSome then g
  else ⟨g.vertices ++ [⟨item, kind, [], [], 0, (0, 0, 0)⟩]⟩

/-- Set-semantics insertion into a neighbour list. -/
def addNb (x : String) (vx : Vertex) : Vertex :=
  if x ∈ vx.neighbours then vx else { vx with neighbours := vx.neighbours ++ [x] }

/-- Graph.add_edge: mutual neighbour insertion, ValueError when an item is absent. -/
def add_edge (g : Graph) (item1 item2 : String) : Except PyErr Graph :=
  if (g.findV item1).isSome ∧ (g.findV item2).isSome then
    .ok ((g.update item1 (addNb item2)).update item2 (addNb item1))
  else
    .error .valueError

/-- Graph.adjacent: False when either item is absent. -/
def adjacent (g : Graph) (item1 item2 : String) : Bool :=
  match g.findV item1, g.findV item2 with
  | some v1, some _ => decide (item2 ∈ v1.neighbours)
  | _, _ => false

def item_in_graph (g : Graph) (item : String) : Bool := (g.findV item).isSome

/-- Graph.add_appearances: record a movie in an actor's appearance set. -/
def add_appearances (g : Graph) (actor movie : String) : Except PyErr Graph :=
  if (g.findV actor).isSome then
    .ok (g.update actor (fun vx =>
      if movie ∈ vx.appearances then vx
      else { vx with appearances := vx.appearances ++ [movie] }))
  else
    .error .valueError

/-- Graph.add_sim_score: `sim_scores[movie]` first (KeyError when absent), then
`self._vertices[movie]` (KeyError when the vertex is absent). -/
def add_sim_score (g : Graph) (movie : String) (sim_scores : List (String × Rat)) :
    Except PyErr Graph :=
  match alookup movie sim_scores with
  | none => .error .keyError
  | some sc =>
    match g.findV movie with
    | none => .error .keyError
    | some _ => .ok (g.update movie (fun vx => { vx with sim_score := sc }))

/-- Neighbour list of the vertex stored under `item` (empty when absent). -/
def neighboursOf (g : Graph) (item : String) : List String :=
  match g.findV item with
  | some vx => vx.neighbours
  | none => []

end Graph

/-- One pass of the unfiltered BFS inner for-loop over the dequeued vertex's
neighbours: unvisited neighbours are marked visited and enqueued with the
extended path. -/
def processNbrs : List String → List String → List (String × List String) → List String →
    List (String × List String) × List String
  | [], visited, queue, _ => (queue, visited)
  | w :: ws, visited, queue, path =>
    if w ∈ visited then processNbrs ws visited queue path
    else processNbrs ws (w :: visited) (queue ++ [(w, path ++ [w])]) path

/-- The while-loop of Graph.shortest_path_bfs, indexed by fuel. -/
def bfsLoop (g : Graph) (target : String) :
    Nat → List (String × List String) → List String → Option (List String)
  | _, [], _ => some []
  | 0, _ :: _, _ => none
  | fuel + 1, (current, path) :: rest, visited =>
    if current = target then some path
    else
      match g.findV current with
      | none => none
      | some vx =>
        let step := processNbrs vx.neighbours visited rest path
        bfsLoop g target fuel step.1 step.2

/-- Graph.shortest_path_bfs.  Fuel `|vertices| + 1` is proved sufficient for
well-formed graphs, so the `getD` default is never taken there. -/
def Graph.shortest_path_bfs (g : Graph) (starting_item target_item : String) :
    Except PyErr (List String) :=
  if (g.findV starting_item).isSome ∧ (g.findV target_item).isSome then
    .ok ((bfsLoop g target_item (g.vertices.length + 1)
      [(starting_item, [starting_item])] [starting_item]).getD [])
  else
    .error .valueError

/-- Association-list store modelling `distances[k] = x` (replaces in place,
appends when the key is missing, as a Python dict would). -/
def setD (k : String) (x : Option Nat) : List (String × Option Nat) → List (String × Option Nat)
  | [] => [(k, x)]
  | e :: es => if e.1 = k then (k, x) :: es else e :: setD k x es

/-- Distance read: `some d` is a finite distance, `none` is float("inf"). -/
def dlookup (k : String) (dists : List (String × Option Nat)) : Option Nat :=
  (alookup k dists).join

/-- One pass of the shortest_distance_bfs inner for-loop: each neighbour that is
neither the start nor visited is marked visited, gets distance
`distances[current] + 1`, and is enqueued. -/
def processDN (start : String) : List String → List String → List String →
    List (String × Option Nat) → String →
    List String × List String × List (String × Option Nat)
  | [], visited, queue, dists, _ => (queue, visited, dists)
  | w :: ws, visited, queue, dists, current =>
    if w ≠ start ∧ w ∉ visited then
      processDN start ws (w :: visited) (queue ++ [w])
        (setD w ((dlookup current dists).map (· + 1)) dists) current
    else
      processDN start ws visited queue dists current

/-- The while-loop of Graph.shortest_distance_bfs, indexed by fuel. -/
def sdLoop (g : Graph) (start : String) :
    Nat → List String → List String → List (String × Option Nat) →
    Option (List (String × Option Nat))
  | _, [], _, dists => some dists
  | 0, _ :: _, _, _ => none
  | fuel + 1, current :: rest, visited, dists =>
    match g.findV current with
    | none => none
    | some vx =>
      let step := processDN start vx.neighbours visited rest dists current
      sdLoop g start fuel step.1 step.2.1 step.2.2

/-- Graph.shortest_distance_bfs: every vertex starts at the infinite sentinel,
the start at 0; the final mapping drops the start entry. -/
def Graph.shortest_distance_bfs (g : Graph) (starting_item : String) :
    Except PyErr (List (String × Option Nat)) :=
  if (g.findV starting_item).isSome then
    let init := setD starting_item (some 0)
      (g.vertices.map (fun vx => (vx.item, (none : Option Nat))))
    .ok (((sdLoop g starting_item (g.vertices.length + 1)
      [starting_item] [starting_item] init).getD []).filter
        (fun e => e.1 ≠ starting_item))
  else
    .error .valueError

/-- External movie record: (cast, (year, votes, rating)). -/
abbrev MovieRec := List String × (Rat × Rat × Rat)

/-- The set comprehension inside Graph.filter_by_key: keeps the common movies
whose projected attribute lies in [lower, upper]; looking up a movie absent
from the record mapping raises KeyError. -/
def filterCommon (proj : Rat × Rat × Rat → Rat) (lower upper : Rat)
    (movies : List (String × MovieRec)) : List String → Except PyErr (List String)
  | [] => .ok []
  | m :: ms =>
    match alookup m movies with
    | none => .error .keyError
    | some r =>
      match filterCommon proj lower upper movies ms with
      | .error e => .error e
      | .ok rest =>
        .ok (if lower ≤ proj r.2 ∧ proj r.2 ≤ upper then m :: rest else rest)

/-- Graph.filter_by_key. -/
def Graph.filter_by_key (g : Graph) (actors : String × String) (key : String)
    (thresholds : Rat × Rat) (movies : List (String × MovieRec)) :
    Except PyErr (Bool × List String) :=
  let lower := thresholds.1
  let upper := thresholds.2
  match g.findV actors.1, g.findV actors.2 with
  | some v1, some v2 =>
    if key = "release date" then
      match filterCommon (fun info => info.1) lower upper movies
          (v1.appearances.filter (fun m => decide (m ∈ v2.appearances))) with
      | .error e => .error e
      | .ok common_filtered =>
        if common_filtered ≠ [] then .ok (true, common_filtered) else .ok (false, [])
    else if key = "rating" then
      match filterCommon (fun info => info.2.2) lower upper movies
          (v1.appearances.filter (fun m => decide (m ∈ v2.appearances))) with
      | .error e => .error e
      | .ok common_filtered =>
        if common_filtered ≠ [] then .ok (true, common_filtered) else .ok (false, [])
    else .error .keyError
  | _, _ => .error .valueError

/-- Graph._sp_bfs_filtered_helper: when the edge is admissible, mark the item
visited and enqueue it with the extended path. -/
def sp_bfs_filtered_helper (is_valid : Bool) (visited : List String) (item : String)
    (queue_path : List (String × List String) × List String) :
    List String × List (String × List String) :=
  if is_valid then
    (item :: visited, queue_path.1 ++ [(item, queue_path.2 ++ [item])])
  else (visited, queue_path.1)

/-- One pass of the filtered BFS inner for-loop: each unvisited neighbour is
tested by filter_by_key (whose errors propagate) before being enqueued. -/
def processFNbrs (g : Graph) (key : String) (lower upper : Rat)
    (movies : List (String × MovieRec)) (current : String) :
    List String → List String → List (String × List String) → List String →
    Except PyErr (List (String × List String) × List String)
  | [], visited, queue, _ => .ok (queue, visited)
  | w :: ws, visited, queue, path =>
    if w ∈ visited then processFNbrs g key lower upper movies current ws visited queue path
    else
      match g.filter_by_key (current, w) key (lower, upper) movies with
      | .error e => .error e
      | .ok result =>
        let step := sp_bfs_filtered_helper result.1 visited w (queue, path)
        processFNbrs g key lower upper movies current ws step.1 step.2 path

/-- The while-loop of Graph.shortest_path_bfs_filtered, indexed by fuel. -/
def bfsFLoop (g : Graph) (target key : String) (lower upper : Rat)
    (movies : List (String × MovieRec)) :
    Nat → List (String × List String) → List String → Option (Except PyErr (List String))
  | _, [], _ => some (.ok [])
  | 0, _ :: _, _ => none
  | fuel + 1, (current, path) :: rest, visited =>
    if current = target then some (.ok path)
    else
      match g.findV current with
      | none => none
      | some vx =>
        match processFNbrs g key lower upper movies current vx.neighbours visited rest path with
        | .error e => some (.error e)
        | .ok step => bfsFLoop g target key lower upper movies fuel step.1 step.2

/-- Graph.shortest_path_bfs_filtered. -/
def Graph.shortest_path_bfs_filtered (g : Graph) (items : String × String) (key : String)
    (thresholds : Rat × Rat) (movies : List (String × MovieRec)) :
    Except PyErr (List String) :=
  if (g.findV items.1).isSome ∧ (g.findV items.2).isSome then
    (bfsFLoop g items.2 key thresholds.1 thresholds.2 movies (g.vertices.length + 1)
      [(items.1, [items.1])] [items.1]).getD (.ok [])
  else
    .error .valueError

/-- _create_actor_graph_helper from graph_create.py: add an edge from `actor`
to every already-present member of the movie's cast other than `actor`. -/
def _create_actor_graph_helper : List String → Graph → String → Except PyErr Graph
  | [], g, _ => .ok g
  | actor2 :: rest, g, actor =>
    if g.item_in_graph actor2 ∧ actor ≠ actor2 then
      match g.add_edge actor actor2 with
      | .error e => .error e
      | .ok g2 => _create_actor_graph_helper rest g2 actor
    else _create_actor_graph_helper rest g actor

/-- Body of the inner for-loop of create_actor_graph for one cast member. -/
def addCastMember (movie : String) (movie_cast : List String) (g : Graph) (actor : String) :
    Except PyErr Graph :=
  match (g.add_vertex actor "actor").add_appearances actor movie with
  | .error e => .error e
  | .ok g2 => _create_actor_graph_helper movie_cast g2 actor

/-- Inner for-loop of create_actor_graph over one movie's cast. -/
def processCast (movie : String) (movie_cast : List String) :
    List String → Graph → Except PyErr Graph
  | [], g => .ok g
  | actor :: rest, g =>
    match addCastMember movie movie_cast g actor with
    | .error e => .error e
    | .ok g2 => processCast movie movie_cast rest g2

/-- Outer for-loop of create_actor_graph over the movies mapping. -/
def create_actor_graph_loop : List (String × MovieRec) → Graph → Except PyErr Graph
  | [], g => .ok g
  | (movie, r) :: rest, g =>
    match processCast movie r.1 r.1 g with
    | .error e => .error e
    | .ok g2 => create_actor_graph_loop rest g2

/-- create_actor_graph from graph_create.py. -/
def create_actor_graph (movies : List (String × MovieRec)) : Except PyErr Graph :=
  create_actor_graph_loop movies Graph.empty

/-- The recommendations argument of create_recommended_movie_graph is a list
or a dict; the dict case is converted to its key list. -/
inductive RecInput where
  | ofList : List String → RecInput
  | ofDict : List (String × Rat) → RecInput

def RecInput.toList : RecInput → List String
  | .ofList l => l
  | .ofDict d => d.map Prod.fst

/-- For-loop of create_recommended_movie_graph over the candidate movies. -/
def addRecMovies (main_movie : String) (sim_scores : List (String × Rat)) :
    List String → Graph → Except PyErr Graph
  | [], g => .ok g
  | movie :: rest, g =>
    match (g.add_vertex movie "movie").add_sim_score movie sim_scores with
    | .error e => .error e
    | .ok g2 =>
      match g2.add_edge movie main_movie with
      | .error e => .error e
      | .ok g3 => addRecMovies main_movie sim_scores rest g3

/-- create_recommended_movie_graph from graph_create.py. -/
def create_recommended_movie_graph (main_movie : String) (recommendations : RecInput)
    (sim_scores : List (String × Rat)) : Except PyErr Graph :=
  match (Graph.empty.add_vertex main_movie "movie").add_sim_score main_movie
      [(main_movie, 1)] with
  | .error e => .error e
  | .ok g => addRecMovies main_movie sim_scores recommendations.toList g

/-- BFS-style discovered paths: `PathTo g s p v` means `p` starts at `s`, ends
at `v`, and steps only along `Graph.adjacent` edges. -/
inductive PathTo (g : Graph) (s : String) : List String → String → Prop where
  | base : PathTo g s [s] s
  | snoc {p : List String} {v w : String} :
      PathTo g s p v → g.adjacent v w = true → PathTo g s (p ++ [w]) w

def Reaches (g : Graph) (s t : String) : Prop := ∃ p, PathTo g s p t

/-- `d` is the minimum hop count from `s` to `v` (paths have `d + 1` vertices). -/
def IsShortest (g : Graph) (s v : String) (d : Nat) : Prop :=
  (∃ p, PathTo g s p v ∧ p.length = d + 1) ∧ ∀ q, PathTo g s q v → d + 1 ≤ q.length

/-- Every recorded neighbour is itself a vertex of the graph. -/
def Graph.Closed (g : Graph) : Prop :=
  ∀ vx ∈ g.vertices, ∀ w ∈ vx.neighbours, (g.findV w).isSome

/-- Well-formedness enjoyed by every graph built through the API: distinct
vertex keys and no dangling neighbour references. -/
def Graph.WF (g : Graph) : Prop := g.keys.Nodup ∧ g.Closed

instance (g : Graph) : Decidable g.Closed :=
  decidable_of_iff (∀ vx ∈ g.vertices, ∀ w ∈ vx.neighbours, (g.findV w).isSome) Iff.rfl

instance (g : Graph) : Decidable g.WF :=
  decidable_of_iff (g.keys.Nodup ∧ g.Closed) Iff.rfl

/-- The representation invariant of the spec: no self-loops, mutual edges. -/
def EdgeInv (g : Graph) : Prop :=
  ∀ vx ∈ g.vertices, vx.item ∉ vx.neighbours ∧
    ∀ u ∈ vx.neighbours, ∃ ux, g.findV u = some ux ∧ vx.item ∈ ux.neighbours

/-- Graphs reachable from the empty graph by the documented mutations. -/
inductive ReachableGraph : Graph → Prop where
  | empty : ReachableGraph Graph.empty
  | vertexStep {g : Graph} (item kind : String) :
      ReachableGraph g → ReachableGraph (g.add_vertex item kind)
  | edgeStep {g g2 : Graph} {item1 item2 : String} :
      ReachableGraph g → item1 ≠ item2 → g.add_edge item1 item2 = .ok g2 → ReachableGraph g2
  | appearanceStep {g g2 : Graph} {actor movie : String} :
      ReachableGraph g → g.add_appearances actor movie = .ok g2 → ReachableGraph g2
  | simScoreStep {g g2 : Graph} {movie : String} {sim_scores : List (String × Rat)} :
      ReachableGraph g → g.add_sim_score movie sim_scores = .ok g2 → ReachableGraph g2

/-- Number of graph keys not yet visited; BFS fuel measure. -/
def unvis (g : Graph) (visited : List String) : Nat :=
  (g.keys.filter (fun k => decide (k ∉ visited))).length


/- Basic lemmas about the association-list operations. -/

structure BfsInv (g : Graph) (s t : String) (Q : List (String × List String))
    (V : List String) : Prop where
  s_mem : s ∈ V
  qv_mem : ∀ e ∈ Q, e.1 ∈ V
  qv_path : ∀ e ∈ Q, PathTo g s e.2 e.1
  qv_min : ∀ e ∈ Q, ∀ q, PathTo g s q e.1 → e.2.length ≤ q.length
  qv_nodup : (Q.map Prod.fst).Nodup
  sorted : Q.Pairwise (fun a b => a.2.length ≤ b.2.length)
  band : ∀ h ∈ Q.head?, ∀ e ∈ Q, e.2.length ≤ h.2.length + 1
  v_reach : ∀ v ∈ V, ∃ p, PathTo g s p v
  v_keys : ∀ v ∈ V, (g.findV v).isSome
  processed : ∀ v ∈ V, v ∉ Q.map Prod.fst → ∀ w ∈ g.neighboursOf v, w ∈ V
  frontier : ∀ h ∈ Q.head?, ∀ u q, PathTo g s q u → q.length ≤ h.2.length → u ∈ V
  t_unproc : t ∈ V → t ∈ Q.map Prod.fst

structure DInv (g : Graph) (s : String) (Q V : List String)
    (dists : List (String × Option Nat)) : Prop where
  s_mem : s ∈ V
  dkeys : dists.map Prod.fst = g.keys
  qv_mem : ∀ v ∈ Q, v ∈ V
  qv_nodup : Q.Nodup
  v_rec : ∀ v ∈ V, ∃ d, dlookup v dists = some d ∧ IsShortest g s v d
  un_rec : ∀ x, x ∉ V → dlookup x dists = none
  v_keys : ∀ v ∈ V, (g.findV v).isSome
  sorted : Q.Pairwise (fun a b => ∀ da db, dlookup a dists = some da →
    dlookup b dists = some db → da ≤ db)
  band : ∀ h ∈ Q.head?, ∀ v ∈ Q, ∀ dh dv, dlookup h dists = some dh →
    dlookup v dists = some dv → dv ≤ dh + 1
  processed : ∀ v ∈ V, v ∉ Q → ∀ w ∈ g.neighboursOf v, w ∈ V
  frontier : ∀ h ∈ Q.head?, ∀ dh, dlookup h dists = some dh →
    ∀ u q, PathTo g s q u → q.length ≤ dh + 1 → u ∈ V

theorem alookup_setD_self (k : String) (x : Option Nat) (d : List (String × Option Nat)) :
    alookup k (setD k x d) = some x := by
  induction d with
  | nil => simp [setD, alookup]
  | cons e es ih =>
    by_cases h : e.1 = k
    · simp [setD, h, alookup]
    · simp [setD, h, alookup, ih]

theorem alookup_setD_other (k k' : String) (x : Option Nat) (d : List (String × Option Nat))
    (h : k' ≠ k) : alookup k' (setD k x d) = alookup k' d := by
  have hk : ¬ (k = k') := fun hh => h hh.symm
  induction d with
  | nil => simp [setD, alookup, hk]
  | cons e es ih =>
    by_cases he : e.1 = k
    · rw [setD, if_pos he, alookup, alookup]
      simp only [hk, if_false]
      rw [he, if_neg hk]
    · rw [setD, if_neg he, alookup, alookup, ih]

theorem setD_fst_of_mem (k : String) (x : Option Nat) (d : List (String × Option Nat))
    (h : k ∈ d.map Prod.fst) : (setD k x d).map Prod.fst = d.map Prod.fst := by
  induction d with
  | nil => simp at h
  | cons e es ih =>
    by_cases he : e.1 = k
    · rw [setD, if_pos he]
      simp [he]
    · simp only [List.map_cons, List.mem_cons] at h
      rcases h with h | h
      · exact absurd h.symm he
      · rw [setD, if_neg he]
        simp [ih h]

theorem dlookup_setD_self (k : String) (x : Option Nat) (d : List (String × Option Nat)) :
    dlookup k (setD k x d) = x := by
  simp [dlookup, alookup_setD_self]

theorem dlookup_setD_other (k k' : String) (x : Option Nat) (d : List (String × Option Nat))
    (h : k' ≠ k) : dlookup k' (setD k x d) = dlookup k' d := by
  simp [dlookup, alookup_setD_other _ _ _ _ h]

theorem alookup_map_const_none (k : String) (l : List Vertex) :
    alookup k (l.map (fun vx => (vx.item, (none : Option Nat)))) =
      if k ∈ l.map Vertex.item then some none else none := by
  induction l with
  | nil => simp [alookup]
  | cons vx l ih =>
    by_cases h : vx.item = k
    · simp [alookup, h]
    · have hk : ¬ (k = vx.item) := fun hh => h hh.symm
      simp only [List.map_cons, alookup, h, if_false, ih, List.mem_cons, hk, false_or]


/- Basic lemmas about Graph lookups and mutation.  The find?-level lemmas are
stated over plain vertex lists, first-order in the item predicate, so that
induction and rewriting go through. -/

theorem find?_item_cons_pos (x : String) (a : Vertex) (l : List Vertex) (h : a.item = x) :
    List.find? (fun u => u.item == x) (a :: l) = some a := by
  simp [List.find?, h]

theorem find?_item_cons_neg (x : String) (a : Vertex) (l : List Vertex) (h : ¬ a.item = x) :
    List.find? (fun u => u.item == x) (a :: l) = List.find? (fun u => u.item == x) l := by
  have hb : (a.item == x) = false := by simpa using h
  simp [List.find?, hb]

theorem find?_item_map_update (l : List Vertex) (k : String) (f : Vertex → Vertex)
    (hf : ∀ vx, (f vx).item = vx.item) :
    (l.map (fun vx => if vx.item = k then f vx else vx)).find? (fun vx => vx.item == k) =
      (l.find? (fun vx => vx.item == k)).map f := by
  induction l with
  | nil => simp
  | cons vx l ih =>
    by_cases h : vx.item = k
    · simp only [List.map_cons, if_pos h]
      rw [find?_item_cons_pos k (f vx) _ (by rw [hf]; exact h), find?_item_cons_pos k vx _ h]
      rfl
    · simp only [List.map_cons, if_neg h]
      rw [find?_item_cons_neg k vx _ h, find?_item_cons_neg k vx _ h]
      exact ih

theorem find?_item_map_update_other (l : List Vertex) (k x : String) (f : Vertex → Vertex)
    (hf : ∀ vx, (f vx).item = vx.item) (hx : x ≠ k) :
    (l.map (fun vx => if vx.item = k then f vx else vx)).find? (fun vx => vx.item == x) =
      l.find? (fun vx => vx.item == x) := by
  induction l with
  | nil => simp
  | cons vx l ih =>
    by_cases h : vx.item = k
    · have hnx : ¬ vx.item = x := fun hh => hx (hh ▸ h)
      simp only [List.map_cons, if_pos h]
      rw [find?_item_cons_neg x (f vx) _ (by rw [hf]; exact hnx),
        find?_item_cons_neg x vx _ hnx]
      exact ih
    · simp only [List.map_cons, if_neg h]
      by_cases hvx : vx.item = x
      · rw [find?_item_cons_pos x vx _ hvx, find?_item_cons_pos x vx _ hvx]
      · rw [find?_item_cons_neg x vx _ hvx, find?_item_cons_neg x vx _ hvx]
        exact ih

theorem find?_append_single_of_none {l : List Vertex} {x : String}
    (h : l.find? (fun u => u.item == x) = none) (vx : Vertex) :
    (l ++ [vx]).find? (fun u => u.item == x) = if vx.item = x then some vx else none := by
  induction l with
  | nil =>
    by_cases hb : vx.item = x
    · simp only [List.nil_append]
      rw [find?_item_cons_pos x vx _ hb, if_pos hb]
    · simp only [List.nil_append]
      rw [find?_item_cons_neg x vx _ hb, if_neg hb]
      rfl
  | cons u l ih =>
    have hu : ¬ u.item = x := by
      intro hh
      rw [find?_item_cons_pos x u _ hh] at h
      exact Option.noConfusion h
    rw [find?_item_cons_neg x u _ hu] at h
    rw [List.cons_append, find?_item_cons_neg x u _ hu]
    exact ih h

theorem find?_append_single_of_some {l : List Vertex} {x : String} {u0 : Vertex}
    (h : l.find? (fun u => u.item == x) = some u0) (vx : Vertex) :
    (l ++ [vx]).find? (fun u => u.item == x) = some u0 := by
  induction l with
  | nil => simp at h
  | cons u l ih =>
    by_cases hu : u.item = x
    · rw [find?_item_cons_pos x u _ hu] at h
      rw [List.cons_append, find?_item_cons_pos x u _ hu]
      exact h
    · rw [find?_item_cons_neg x u _ hu] at h
      rw [List.cons_append, find?_item_cons_neg x u _ hu]
      exact ih h

namespace Graph

theorem findV_isSome_iff {g : Graph} {x : String} :
    (g.findV x).isSome ↔ x ∈ g.keys := by
  simp only [findV, keys, List.find?_isSome, List.mem_map]
  constructor
  · rintro ⟨vx, hmem, hbeq⟩
    exact ⟨vx, hmem, by simpa using hbeq⟩
  · rintro ⟨vx, hmem, heq⟩
    exact ⟨vx, hmem, by simpa using heq⟩

theorem findV_eq_some_facts {g : Graph} {x : String} {vx : Vertex}
    (h : g.findV x = some vx) : vx ∈ g.vertices ∧ vx.item = x := by
  refine ⟨List.mem_of_find?_eq_some h, ?_⟩
  have := List.find?_some h
  simpa using this

theorem findV_of_mem {g : Graph} {vx : Vertex} (h : vx ∈ g.vertices) :
    ∃ ux, g.findV vx.item = some ux := by
  have : (g.findV vx.item).isSome := by
    rw [findV_isSome_iff]
    exact List.mem_map.mpr ⟨vx, h, rfl⟩
  exact Option.isSome_iff_exists.mp this

theorem findV_update_self (g : Graph) (k : String) (f : Vertex → Vertex)
    (hf : ∀ vx, (f vx).item = vx.item) :
    (g.update k f).findV k = (g.findV k).map f :=
  find?_item_map_update g.vertices k f hf

theorem findV_update_other (g : Graph) (k x : String) (f : Vertex → Vertex)
    (hf : ∀ vx, (f vx).item = vx.item) (hx : x ≠ k) :
    (g.update k f).findV x = g.findV x :=
  find?_item_map_update_other g.vertices k x f hf hx

theorem keys_update (g : Graph) (k : String) (f : Vertex → Vertex)
    (hf : ∀ vx, (f vx).item = vx.item) : (g.update k f).keys = g.keys := by
  show (g.vertices.map _).map _ = _
  rw [List.map_map]
  apply List.map_congr_left
  intro vx _
  by_cases h : vx.item = k <;> simp [h, hf]

theorem update_isSome (g : Graph) (k x : String) (f : Vertex → Vertex)
    (hf : ∀ vx, (f vx).item = vx.item) :
    ((g.update k f).findV x).isSome = (g.findV x).isSome := by
  by_cases hx : x = k
  · subst hx
    rw [findV_update_self _ _ _ hf]
    cases g.findV x <;> rfl
  · rw [findV_update_other _ _ _ _ hf hx]

theorem add_vertex_of_present {g : Graph} {i kd : String} (h : (g.findV i).isSome) :
    g.add_vertex i kd = g := by
  simp [add_vertex, h]

theorem findV_add_vertex_new {g : Graph} {i kd : String} (h : g.findV i = none) (x : String) :
    (g.add_vertex i kd).findV x =
      if x = i then some ⟨i, kd, [], [], 0, (0, 0, 0)⟩ else g.findV x := by
  have hns : ¬ (g.findV i).isSome := by simp [h]
  rw [add_vertex, if_neg hns]
  by_cases hx : x = i
  · subst hx
    rw [if_pos rfl]
    exact (find?_append_single_of_none h _).trans (by rw [if_pos rfl])
  · rw [if_neg hx]
    cases hfx : g.findV x with
    | none =>
      refine (find?_append_single_of_none hfx _).trans ?_
      rw [if_neg (fun hh : (i : String) = x => hx hh.symm)]
    | some u0 => exact find?_append_single_of_some hfx _

theorem add_vertex_isSome (g : Graph) (i kd x : String) :
    ((g.add_vertex i kd).findV x).isSome ↔ ((g.findV x).isSome ∨ x = i) := by
  by_cases h : (g.findV i).isSome
  · rw [add_vertex_of_present h]
    constructor
    · exact fun hh => Or.inl hh
    · rintro (hh | rfl)
      · exact hh
      · exact h
  · have hn : g.findV i = none := Option.not_isSome_iff_eq_none.mp h
    rw [findV_add_vertex_new hn]
    by_cases hx : x = i
    · simp [hx]
    · simp [hx]

end Graph

/- Lemmas about adjacency and membership. -/

theorem adjacent_true_iff {g : Graph} {a b : String} :
    g.adjacent a b = true ↔
      ∃ va, g.findV a = some va ∧ (g.findV b).isSome ∧ b ∈ va.neighbours := by
  unfold Graph.adjacent
  cases ha : g.findV a with
  | none => simp
  | some va =>
    cases hb : g.findV b with
    | none => simp
    | some vb => simp

theorem mem_neighboursOf_iff {g : Graph} {a b : String} :
    b ∈ g.neighboursOf a ↔ ∃ va, g.findV a = some va ∧ b ∈ va.neighbours := by
  unfold Graph.neighboursOf
  cases ha : g.findV a with
  | none => simp
  | some va => simp

theorem adjacent_of_closed {g : Graph} {a b : String} (hc : g.Closed)
    {va : Vertex} (ha : g.findV a = some va) (hb : b ∈ va.neighbours) :
    g.adjacent a b = true := by
  rw [adjacent_true_iff]
  refine ⟨va, ha, ?_, hb⟩
  exact hc va (Graph.findV_eq_some_facts ha).1 b hb

/- Lemmas about PathTo. -/

theorem PathTo.length_pos {g : Graph} {s : String} {p : List String} {v : String}
    (h : PathTo g s p v) : 1 ≤ p.length := by
  induction h with
  | base => simp
  | snoc _ _ _ => simp

theorem PathTo.ne_nil {g : Graph} {s : String} {p : List String} {v : String}
    (h : PathTo g s p v) : p ≠ [] := by
  intro hnil
  have := h.length_pos
  rw [hnil] at this
  simp at this

theorem PathTo.head_eq {g : Graph} {s : String} {p : List String} {v : String}
    (h : PathTo g s p v) : p.head? = some s := by
  induction h with
  | base => rfl
  | @snoc p' v' w' hp hadj ih =>
    cases p' with
    | nil => exact absurd rfl hp.ne_nil
    | cons a l => simpa using ih

theorem PathTo.getLast_eq {g : Graph} {s : String} {p : List String} {v : String}
    (h : PathTo g s p v) : p.getLast? = some v := by
  induction h with
  | base => rfl
  | snoc hp _ _ => simp

theorem PathTo.chain {g : Graph} {s : String} {p : List String} {v : String}
    (h : PathTo g s p v) : List.Chain' (fun a b => g.adjacent a b = true) p := by
  induction h with
  | base => simp
  | @snoc p' v' w' hp hadj ih =>
    rw [List.chain'_append]
    refine ⟨ih, by simp, ?_⟩
    intro x hx y hy
    rw [hp.getLast_eq] at hx
    cases hx
    simp only [List.head?_cons, Option.mem_def, Option.some.injEq] at hy
    cases hy
    exact hadj

theorem PathTo.length_one_eq {g : Graph} {s : String} {p : List String} {v : String}
    (h : PathTo g s p v) (hlen : p.length = 1) : v = s := by
  cases h with
  | base => rfl
  | @snoc p' v' _ hp hadj =>
    exfalso
    have := hp.length_pos
    simp only [List.length_append, List.length_cons, List.length_nil] at hlen
    omega

theorem PathTo.endpoint_cases {g : Graph} {s : String} {p : List String} {v : String}
    (h : PathTo g s p v) : v = s ∨ (g.findV v).isSome := by
  cases h with
  | base => exact Or.inl rfl
  | snoc hp hadj =>
    right
    rcases adjacent_true_iff.mp hadj with ⟨va, _, hb, _⟩
    exact hb

/- Lemmas about the unvisited-vertex count. -/

theorem filter_not_mem_cons_le (l : List String) (w : String) (V : List String) :
    (l.filter (fun k => decide (k ∉ w :: V))).length ≤
      (l.filter (fun k => decide (k ∉ V))).length := by
  induction l with
  | nil => simp
  | cons a l ih =>
    by_cases haV : a ∈ V
    · have h1 : (decide (a ∉ w :: V)) = false := by simp [haV]
      have h2 : (decide (a ∉ V)) = false := by simp [haV]
      simp only [List.filter_cons, h1, h2, Bool.false_eq_true, if_false]
      exact ih
    · by_cases haw : a = w
      · have h1 : (decide (a ∉ w :: V)) = false := by simp [haw]
        have h2 : (decide (a ∉ V)) = true := by simp [haV]
        simp only [List.filter_cons, h1, h2, Bool.false_eq_true, if_false, if_true,
          List.length_cons]
        omega
      · have h1 : (decide (a ∉ w :: V)) = true := by simp [haV, haw]
        have h2 : (decide (a ∉ V)) = true := by simp [haV]
        simp only [List.filter_cons, h1, h2, if_true, List.length_cons]
        omega

theorem filter_not_mem_cons_lt (l : List String) (w : String) (V : List String)
    (hw : w ∈ l) (hwV : w ∉ V) :
    (l.filter (fun k => decide (k ∉ w :: V))).length <
      (l.filter (fun k => decide (k ∉ V))).length := by
  induction l with
  | nil => simp at hw
  | cons a l ih =>
    by_cases haw : a = w
    · have h1 : (decide (a ∉ w :: V)) = false := by simp [haw]
      have h2 : (decide (a ∉ V)) = true := by
        subst haw
        simp [hwV]
      simp only [List.filter_cons, h1, h2, Bool.false_eq_true, if_false, if_true,
        List.length_cons]
      have := filter_not_mem_cons_le l w V
      omega
    · have hwl : w ∈ l := by
        rcases List.mem_cons.mp hw with h | h
        · exact absurd h.symm haw
        · exact h
      by_cases haV : a ∈ V
      · have h1 : (decide (a ∉ w :: V)) = false := by simp [haV]
        have h2 : (decide (a ∉ V)) = false := by simp [haV]
        simp only [List.filter_cons, h1, h2, Bool.false_eq_true, if_false]
        exact ih hwl
      · have h1 : (decide (a ∉ w :: V)) = true := by simp [haV, haw]
        have h2 : (decide (a ∉ V)) = true := by simp [haV]
        simp only [List.filter_cons, h1, h2, if_true, List.length_cons]
        have := ih hwl
        omega

theorem unvis_cons_le (g : Graph) (w : String) (V : List String) :
    unvis g (w :: V) ≤ unvis g V :=
  filter_not_mem_cons_le g.keys w V

theorem unvis_cons_lt (g : Graph) {w : String} (V : List String)
    (hw : w ∈ g.keys) (hwV : w ∉ V) : unvis g (w :: V) < unvis g V :=
  filter_not_mem_cons_lt g.keys w V hw hwV

theorem unvis_le_length (g : Graph) (V : List String) :
    unvis g V ≤ g.vertices.length := by
  have h := List.length_filter_le (fun k => decide (k ∉ V)) g.keys
  simpa [unvis, Graph.keys] using h

/- The unfiltered-BFS loop invariant and its preservation. -/

theorem processNbrs_spec (g : Graph) (nbrs : List String) :
    ∀ (V : List String) (acc : List (String × List String)) (p : List String),
      ∃ new V2, processNbrs nbrs V acc p = (acc ++ new, V2) ∧
        (∀ e ∈ new, e.2 = p ++ [e.1] ∧ e.1 ∈ nbrs ∧ e.1 ∉ V) ∧
        (new.map Prod.fst).Nodup ∧
        (∀ x, x ∈ V2 ↔ x ∈ new.map Prod.fst ∨ x ∈ V) ∧
        (∀ w ∈ nbrs, w ∈ V2) ∧
        ((∀ w ∈ nbrs, w ∈ g.keys) → new.length + unvis g V2 ≤ unvis g V) := by
  induction nbrs with
  | nil =>
    intro V acc p
    refine ⟨[], V, by simp [processNbrs], by simp, by simp, by simp, by simp, ?_⟩
    intro _
    simp [unvis]
  | cons w ws ih =>
    intro V acc p
    by_cases hwV : w ∈ V
    · obtain ⟨new, V2, heq, h1, h2, h3, h4, h5⟩ := ih V acc p
      refine ⟨new, V2, by rw [processNbrs, if_pos hwV]; exact heq, ?_, h2, h3, ?_, ?_⟩
      · intro e he
        obtain ⟨ha, hb, hc⟩ := h1 e he
        exact ⟨ha, List.mem_cons_of_mem _ hb, hc⟩
      · intro u hu
        rcases List.mem_cons.mp hu with rfl | hu
        · exact (h3 u).mpr (Or.inr hwV)
        · exact h4 u hu
      · intro hkeys
        exact h5 (fun u hu => hkeys u (List.mem_cons_of_mem _ hu))
    · obtain ⟨new, V2, heq, h1, h2, h3, h4, h5⟩ := ih (w :: V) (acc ++ [(w, p ++ [w])]) p
      refine ⟨(w, p ++ [w]) :: new, V2, ?_, ?_, ?_, ?_, ?_, ?_⟩
      · rw [processNbrs, if_neg hwV, heq]
        simp
      · intro e he
        rcases List.mem_cons.mp he with rfl | he
        · exact ⟨rfl, List.mem_cons_self _ _, hwV⟩
        · obtain ⟨ha, hb, hc⟩ := h1 e he
          refine ⟨ha, List.mem_cons_of_mem _ hb, ?_⟩
          intro hmem
          exact hc (List.mem_cons_of_mem _ hmem)
      · simp only [List.map_cons, List.nodup_cons]
        refine ⟨?_, h2⟩
        intro hmem
        rcases List.mem_map.mp hmem with ⟨e, he, heq'⟩
        have := (h1 e he).2.2
        exact this (heq' ▸ List.mem_cons_self w V)
      · intro x
        rw [h3 x]
        simp only [List.map_cons, List.mem_cons]
        tauto
      · intro u hu
        rcases List.mem_cons.mp hu with rfl | hu
        · exact (h3 u).mpr (Or.inr (List.mem_cons_self _ _))
        · exact h4 u hu
      · intro hkeys
        have hlt : unvis g (w :: V) < unvis g V :=
          unvis_cons_lt g V (hkeys w (List.mem_cons_self _ _)) hwV
        have := h5 (fun u hu => hkeys u (List.mem_cons_of_mem _ hu))
        simp only [List.length_cons]
        omega

theorem visited_closed_reach (g : Graph) (s : String) (V : List String)
    (hs : s ∈ V) (hcl : ∀ v ∈ V, ∀ w ∈ g.neighboursOf v, w ∈ V) :
    ∀ u, Reaches g s u → u ∈ V := by
  rintro u ⟨p, hp⟩
  induction hp with
  | base => exact hs
  | @snoc p' v' w' hp' hadj ih =>
    apply hcl v' ih
    rw [mem_neighboursOf_iff]
    rcases adjacent_true_iff.mp hadj with ⟨va, hva, _, hw⟩
    exact ⟨va, hva, hw⟩

theorem bfsInv_step (g : Graph) (s t : String) (hwf : g.WF)
    {v : String} {p : List String} {rest : List (String × List String)}
    {V : List String} {vx : Vertex}
    (inv : BfsInv g s t ((v, p) :: rest) V)
    (hvt : v ≠ t)
    (hfind : g.findV v = some vx) :
    ∃ new V2, processNbrs vx.neighbours V rest p = (rest ++ new, V2) ∧
      BfsInv g s t (rest ++ new) V2 ∧
      (rest ++ new).length + unvis g V2 ≤ rest.length + unvis g V := by
  obtain ⟨new, V2, heq, hnew, hnodupnew, hV2, hall, hcount⟩ :=
    processNbrs_spec g vx.neighbours V rest p
  have hvV : v ∈ V := inv.qv_mem (v, p) (List.mem_cons_self _ _)
  have hpath : PathTo g s p v := inv.qv_path (v, p) (List.mem_cons_self _ _)
  have hvxmem : vx ∈ g.vertices := (Graph.findV_eq_some_facts hfind).1
  have hnbkeys : ∀ w ∈ vx.neighbours, w ∈ g.keys := fun w hw =>
    Graph.findV_isSome_iff.mp (hwf.2 vx hvxmem w hw)
  have hplen : 1 ≤ p.length := hpath.length_pos
  have hfront : ∀ u q, PathTo g s q u → q.length ≤ p.length → u ∈ V :=
    inv.frontier (v, p) rfl
  have hnewpath : ∀ e ∈ new, PathTo g s e.2 e.1 := by
    intro e he
    obtain ⟨he2, hin, _⟩ := hnew e he
    rw [he2]
    exact hpath.snoc (adjacent_of_closed hwf.2 hfind hin)
  have hnewlen : ∀ e ∈ new, e.2.length = p.length + 1 := by
    intro e he
    rw [(hnew e he).1]
    simp
  have hnewmin : ∀ e ∈ new, ∀ q, PathTo g s q e.1 → e.2.length ≤ q.length := by
    intro e he q hq
    rw [hnewlen e he]
    by_contra hlt
    push_neg at hlt
    have : e.1 ∈ V := hfront e.1 q hq (by omega)
    exact (hnew e he).2.2 this
  have hVsub : ∀ x ∈ V, x ∈ V2 := fun x hx => (hV2 x).mpr (Or.inr hx)
  have hnewV2 : ∀ e ∈ new, e.1 ∈ V2 := fun e he =>
    (hV2 e.1).mpr (Or.inl (List.mem_map.mpr ⟨e, he, rfl⟩))
  have hrestband : ∀ e ∈ rest, e.2.length ≤ p.length + 1 := fun e he =>
    inv.band (v, p) rfl e (List.mem_cons_of_mem _ he)
  have hrestsorted : ∀ e ∈ rest, p.length ≤ e.2.length := by
    have h := inv.sorted
    rw [List.pairwise_cons] at h
    exact fun e he => h.1 e he
  have hrest_tail_pairwise : rest.Pairwise (fun a b => a.2.length ≤ b.2.length) := by
    have h := inv.sorted
    rw [List.pairwise_cons] at h
    exact h.2
  have hQfst : (rest ++ new).map Prod.fst = rest.map Prod.fst ++ new.map Prod.fst := by simp
  have hrestmem : ∀ e ∈ rest, e.1 ∈ V := fun e he => inv.qv_mem e (List.mem_cons_of_mem _ he)
  have hproc2 : ∀ x ∈ V2, x ∉ (rest ++ new).map Prod.fst →
      ∀ w ∈ g.neighboursOf x, w ∈ V2 := by
    intro x hx hnq w hw
    rcases (hV2 x).mp hx with hxnew | hxV
    · exact absurd (by rw [hQfst]; exact List.mem_append_right _ hxnew) hnq
    · by_cases hxv : x = v
      · subst hxv
        have hno : g.neighboursOf x = vx.neighbours := by
          unfold Graph.neighboursOf
          rw [hfind]
        rw [hno] at hw
        exact hall w hw
      · have hninq : x ∉ ((v, p) :: rest).map Prod.fst := by
          simp only [List.map_cons, List.mem_cons]
          rintro (h | h)
          · exact hxv h
          · exact hnq (by rw [hQfst]; exact List.mem_append_left _ h)
        exact hVsub w (inv.processed x hxV hninq w hw)
  have hsorted2 : (rest ++ new).Pairwise (fun a b => a.2.length ≤ b.2.length) := by
    rw [List.pairwise_append]
    refine ⟨hrest_tail_pairwise, ?_, ?_⟩
    · apply List.pairwise_of_forall_mem_list
      intro a ha b hb
      rw [hnewlen a ha, hnewlen b hb]
    · intro a ha b hb
      rw [hnewlen b hb]
      exact hrestband a ha
  have hband2 : ∀ h2, (rest ++ new).head? = some h2 →
      ∀ e ∈ rest ++ new, e.2.length ≤ h2.2.length + 1 := by
    intro h2 hh2 e he
    cases hrest : rest with
    | nil =>
      subst hrest
      simp only [List.nil_append] at hh2 he
      cases hn : new with
      | nil =>
        subst hn
        simp at he
      | cons n0 ns =>
        subst hn
        simp only [List.head?_cons, Option.some.injEq] at hh2
        rw [hnewlen e he, ← hh2, hnewlen n0 (List.mem_cons_self _ _)]
        omega
    | cons r rs =>
      subst hrest
      simp only [List.cons_append, List.head?_cons, Option.some.injEq] at hh2
      have hrp : p.length ≤ r.2.length := hrestsorted r (List.mem_cons_self _ _)
      rw [← hh2]
      rcases List.mem_append.mp he with he' | he'
      · have h1 := hrestband e he'
        omega
      · rw [hnewlen e he']
        omega
  have hfront2 : ∀ h2, (rest ++ new).head? = some h2 →
      ∀ u q, PathTo g s q u → q.length ≤ h2.2.length → u ∈ V2 := by
    intro h2 hh2 u q hq hlen
    by_cases hqp : q.length ≤ p.length
    · exact hVsub u (hfront u q hq hqp)
    · have hh2mem : h2 ∈ rest ++ new := by
        cases hrn : rest ++ new with
        | nil =>
          rw [hrn] at hh2
          exact absurd hh2 (by simp)
        | cons q0 qt =>
          rw [hrn] at hh2
          simp only [List.head?_cons, Option.some.injEq] at hh2
          rw [← hh2]
          exact List.mem_cons_self _ _
      have hh2ub : h2.2.length ≤ p.length + 1 := by
        rcases List.mem_append.mp hh2mem with h | h
        · exact hrestband h2 h
        · rw [hnewlen h2 h]
      have hqlen : q.length = p.length + 1 := by omega
      have hh2len : h2.2.length = p.length + 1 := by omega
      cases hq with
      | base =>
        exfalso
        simp only [List.length_cons, List.length_nil] at hqlen
        omega
      | @snoc q' v0 _ hq' hadj =>
        have hq'len : q'.length = p.length := by
          simp only [List.length_append, List.length_cons, List.length_nil] at hqlen
          omega
        have hv0V : v0 ∈ V := hfront v0 q' hq' (by omega)
        have hv0ninq : v0 ∉ (rest ++ new).map Prod.fst := by
          intro hmem
          obtain ⟨e0, he0, he0fst⟩ := List.mem_map.mp hmem
          have hmin0 : e0.2.length ≤ q'.length := by
            rcases List.mem_append.mp he0 with h | h
            · exact inv.qv_min e0 (List.mem_cons_of_mem _ h) q' (he0fst ▸ hq')
            · exact hnewmin e0 h q' (he0fst ▸ hq')
          have hge : h2.2.length ≤ e0.2.length := by
            cases hrn : rest ++ new with
            | nil =>
              rw [hrn] at he0
              simp at he0
            | cons q0 qt =>
              rw [hrn] at hh2 he0
              simp only [List.head?_cons, Option.some.injEq] at hh2
              subst hh2
              have hp2 := hsorted2
              rw [hrn, List.pairwise_cons] at hp2
              rcases List.mem_cons.mp he0 with h | h
              · rw [h]
              · exact hp2.1 e0 h
          omega
        have hadj' : u ∈ g.neighboursOf v0 := by
          rw [mem_neighboursOf_iff]
          rcases adjacent_true_iff.mp hadj with ⟨va, hva, _, hu⟩
          exact ⟨va, hva, hu⟩
        exact hproc2 v0 (hVsub v0 hv0V) hv0ninq u hadj'
  have hnodup2 : ((rest ++ new).map Prod.fst).Nodup := by
    rw [hQfst, List.nodup_append]
    have h := inv.qv_nodup
    simp only [List.map_cons, List.nodup_cons] at h
    refine ⟨h.2, hnodupnew, ?_⟩
    intro x hx hx2
    obtain ⟨e, he, rfl⟩ := List.mem_map.mp hx
    have hxV : e.1 ∈ V := hrestmem e he
    obtain ⟨e', he', hfst⟩ := List.mem_map.mp hx2
    have hnin := (hnew e' he').2.2
    rw [hfst] at hnin
    exact hnin hxV
  refine ⟨new, V2, heq, ?_, ?_⟩
  · refine ⟨hVsub s inv.s_mem, ?_, ?_, ?_, hnodup2, hsorted2, ?_, ?_, ?_, hproc2, ?_, ?_⟩
    · intro e he
      rcases List.mem_append.mp he with h | h
      · exact hVsub e.1 (hrestmem e h)
      · exact hnewV2 e h
    · intro e he
      rcases List.mem_append.mp he with h | h
      · exact inv.qv_path e (List.mem_cons_of_mem _ h)
      · exact hnewpath e h
    · intro e he
      rcases List.mem_append.mp he with h | h
      · exact inv.qv_min e (List.mem_cons_of_mem _ h)
      · exact hnewmin e h
    · intro h2 hh2
      exact hband2 h2 hh2
    · intro x hx
      rcases (hV2 x).mp hx with h | h
      · obtain ⟨e, he, rfl⟩ := List.mem_map.mp h
        exact ⟨e.2, hnewpath e he⟩
      · exact inv.v_reach x h
    · intro x hx
      rcases (hV2 x).mp hx with h | h
      · obtain ⟨e, he, rfl⟩ := List.mem_map.mp h
        exact Graph.findV_isSome_iff.mpr (hnbkeys e.1 (hnew e he).2.1)
      · exact inv.v_keys x h
    · intro h2 hh2
      exact hfront2 h2 hh2
    · intro ht
      rcases (hV2 t).mp ht with h | h
      · rw [hQfst]
        exact List.mem_append_right _ h
      · have h' := inv.t_unproc h
        simp only [List.map_cons, List.mem_cons] at h'
        rcases h' with h' | h'
        · exact absurd h' (fun hh => hvt hh.symm)
        · rw [hQfst]
          exact List.mem_append_left _ h'
  · have h := hcount hnbkeys
    simp only [List.length_append]
    omega

theorem bfsInv_empty_noreach (g : Graph) (s t : String) (V : List String)
    (inv : BfsInv g s t [] V) : ¬ Reaches g s t := by
  intro hre
  have ht : t ∈ V := visited_closed_reach g s V inv.s_mem
    (fun v hv w hw => inv.processed v hv (by simp) w hw) t hre
  have h := inv.t_unproc ht
  simp at h

theorem bfsLoop_run (g : Graph) (s t : String) (hwf : g.WF) :
    ∀ (fuel : Nat) (Q : List (String × List String)) (V : List String),
      BfsInv g s t Q V → Q.length + unvis g V ≤ fuel →
      ∃ r, bfsLoop g t fuel Q V = some r ∧
        ((r = [] ∧ ¬ Reaches g s t) ∨
         (PathTo g s r t ∧ ∀ q, PathTo g s q t → r.length ≤ q.length)) := by
  intro fuel
  induction fuel with
  | zero =>
    intro Q V inv hcount
    cases Q with
    | nil => exact ⟨[], rfl, Or.inl ⟨rfl, bfsInv_empty_noreach g s t V inv⟩⟩
    | cons e rest => simp at hcount
  | succ n ih =>
    intro Q V inv hcount
    cases Q with
    | nil => exact ⟨[], rfl, Or.inl ⟨rfl, bfsInv_empty_noreach g s t V inv⟩⟩
    | cons e rest =>
      obtain ⟨v, p⟩ := e
      by_cases hvt : v = t
      · subst hvt
        refine ⟨p, by simp [bfsLoop], Or.inr
          ⟨inv.qv_path (v, p) (List.mem_cons_self _ _),
           inv.qv_min (v, p) (List.mem_cons_self _ _)⟩⟩
      · have hvV : v ∈ V := inv.qv_mem (v, p) (List.mem_cons_self _ _)
        obtain ⟨vx, hfind⟩ := Option.isSome_iff_exists.mp (inv.v_keys v hvV)
        obtain ⟨new, V2, heq, inv2, hcount2⟩ := bfsInv_step g s t hwf inv hvt hfind
        obtain ⟨r, hr, hchar⟩ := ih (rest ++ new) V2 inv2 (by
          simp only [List.length_cons] at hcount
          omega)
        refine ⟨r, ?_, hchar⟩
        show bfsLoop g t (n + 1) ((v, p) :: rest) V = some r
        simp only [bfsLoop, if_neg hvt, hfind, heq]
        exact hr

theorem shortest_path_bfs_run (g : Graph) (s t : String) (hwf : g.WF)
    (hs : (g.findV s).isSome) (ht : (g.findV t).isSome) :
    ∃ r, g.shortest_path_bfs s t = .ok r ∧
      ((r = [] ∧ ¬ Reaches g s t) ∨
       (PathTo g s r t ∧ ∀ q, PathTo g s q t → r.length ≤ q.length)) := by
  have inv0 : BfsInv g s t [(s, [s])] [s] := by
    refine ⟨?_, ?_, ?_, ?_, ?_, ?_, ?_, ?_, ?_, ?_, ?_, ?_⟩
    · simp
    · intro e he
      simp only [List.mem_singleton] at he
      subst he
      simp
    · intro e he
      simp only [List.mem_singleton] at he
      subst he
      exact PathTo.base
    · intro e he q hq
      simp only [List.mem_singleton] at he
      subst he
      exact hq.length_pos
    · simp
    · simp
    · intro h hh e he
      simp only [List.head?_cons, Option.mem_def, Option.some.injEq] at hh
      simp only [List.mem_singleton] at he
      subst he
      rw [← hh]
      simp
    · intro x hx
      simp only [List.mem_singleton] at hx
      subst hx
      exact ⟨[x], PathTo.base⟩
    · intro x hx
      simp only [List.mem_singleton] at hx
      subst hx
      exact hs
    · intro x hx hnin
      simp only [List.mem_singleton] at hx
      simp only [List.map_cons, List.map_nil, List.mem_singleton] at hnin
      exact absurd hx hnin
    · intro h hh u q hq hlen
      simp only [List.head?_cons, Option.mem_def, Option.some.injEq] at hh
      rw [← hh] at hlen
      simp only [List.length_cons, List.length_nil] at hlen
      have h1 := hq.length_pos
      have hu : u = s := hq.length_one_eq (by omega)
      simp [hu]
    · intro ht'
      simpa using ht'
  have hcount0 : [(s, [s])].length + unvis g [s] ≤ g.vertices.length + 1 := by
    have h := unvis_le_length g [s]
    simp only [List.length_cons, List.length_nil]
    omega
  obtain ⟨r, hr, hchar⟩ := bfsLoop_run g s t hwf (g.vertices.length + 1) _ _ inv0 hcount0
  refine ⟨r, ?_, hchar⟩
  unfold Graph.shortest_path_bfs
  rw [if_pos ⟨hs, ht⟩, hr]
  rfl

/- The distance-BFS loop invariant and its preservation. -/

theorem IsShortest.unique {g : Graph} {s v : String} {d d' : Nat}
    (h1 : IsShortest g s v d) (h2 : IsShortest g s v d') : d = d' := by
  obtain ⟨p, hp, hlen⟩ := h1.1
  obtain ⟨p', hp', hlen'⟩ := h2.1
  have ha := h2.2 p hp
  have hb := h1.2 p' hp'
  omega

theorem IsShortest.reaches {g : Graph} {s v : String} {d : Nat}
    (h : IsShortest g s v d) : Reaches g s v := by
  obtain ⟨p, hp, _⟩ := h.1
  exact ⟨p, hp⟩

theorem processDN_spec (g : Graph) (start current : String) (nbrs : List String) :
    ∀ (V queue : List String) (dists : List (String × Option Nat)),
      current ∈ V →
      ∃ new V2 dists2,
        processDN start nbrs V queue dists current = (queue ++ new, V2, dists2) ∧
        (∀ w ∈ new, w ∈ nbrs ∧ w ∉ V ∧ w ≠ start) ∧
        new.Nodup ∧
        (∀ x, x ∈ V2 ↔ x ∈ new ∨ x ∈ V) ∧
        (start ∈ V → ∀ w ∈ nbrs, w ∈ V2) ∧
        (∀ x, x ∉ new → dlookup x dists2 = dlookup x dists) ∧
        (∀ x ∈ new, dlookup x dists2 = (dlookup current dists).map (· + 1)) ∧
        (dists.map Prod.fst = g.keys → (∀ w ∈ nbrs, w ∈ g.keys) →
          dists2.map Prod.fst = g.keys) ∧
        ((∀ w ∈ nbrs, w ∈ g.keys) → new.length + unvis g V2 ≤ unvis g V) := by
  induction nbrs with
  | nil =>
    intro V queue dists hcur
    refine ⟨[], V, dists, by simp [processDN], by simp, by simp, by simp, ?_, ?_, ?_, ?_, ?_⟩
    · intro _ w hw
      simp at hw
    · intro x _
      rfl
    · intro x hx
      simp at hx
    · intro h _
      exact h
    · intro _
      simp [unvis]
  | cons w ws ih =>
    intro V queue dists hcur
    by_cases hguard : w ≠ start ∧ w ∉ V
    · obtain ⟨hws, hwV⟩ := hguard
      have hcur2 : current ∈ w :: V := List.mem_cons_of_mem _ hcur
      have hcw : current ≠ w := fun hh => hwV (hh ▸ hcur)
      obtain ⟨new, V2, dists2, heq, h1, h2, h3, h4, h5, h6, h7, h8⟩ :=
        ih (w :: V) (queue ++ [w]) (setD w ((dlookup current dists).map (· + 1)) dists) hcur2
      have hwnew : w ∉ new := by
        intro hmem
        exact (h1 w hmem).2.1 (List.mem_cons_self _ _)
      have hcurstable :
          dlookup current (setD w ((dlookup current dists).map (· + 1)) dists) =
            dlookup current dists :=
        dlookup_setD_other _ _ _ _ hcw
      refine ⟨w :: new, V2, dists2, ?_, ?_, ?_, ?_, ?_, ?_, ?_, ?_, ?_⟩
      · rw [processDN, if_pos ⟨hws, hwV⟩, heq]
        simp
      · intro u hu
        rcases List.mem_cons.mp hu with rfl | hu
        · exact ⟨List.mem_cons_self _ _, hwV, hws⟩
        · obtain ⟨ha, hb, hc⟩ := h1 u hu
          exact ⟨List.mem_cons_of_mem _ ha, fun hm => hb (List.mem_cons_of_mem _ hm), hc⟩
      · exact List.nodup_cons.mpr ⟨hwnew, h2⟩
      · intro x
        rw [h3 x]
        simp only [List.mem_cons]
        tauto
      · intro hstart u hu
        rcases List.mem_cons.mp hu with rfl | hu
        · exact (h3 u).mpr (Or.inr (List.mem_cons_self _ _))
        · exact h4 (List.mem_cons_of_mem _ hstart) u hu
      · intro x hx
        have hxw : x ≠ w := fun hh => hx (hh ▸ List.mem_cons_self _ _)
        have hxnew : x ∉ new := fun hh => hx (List.mem_cons_of_mem _ hh)
        rw [h5 x hxnew, dlookup_setD_other _ _ _ _ hxw]
      · intro x hx
        rcases List.mem_cons.mp hx with rfl | hx
        · rw [h5 x hwnew, dlookup_setD_self]
        · rw [h6 x hx, hcurstable]
      · intro hk hnb
        have hwk : w ∈ dists.map Prod.fst := by
          rw [hk]
          exact hnb w (List.mem_cons_self _ _)
        have : (setD w ((dlookup current dists).map (· + 1)) dists).map Prod.fst = g.keys := by
          rw [setD_fst_of_mem _ _ _ hwk, hk]
        exact h7 this (fun u hu => hnb u (List.mem_cons_of_mem _ hu))
      · intro hnb
        have hlt : unvis g (w :: V) < unvis g V :=
          unvis_cons_lt g V (hnb w (List.mem_cons_self _ _)) hwV
        have := h8 (fun u hu => hnb u (List.mem_cons_of_mem _ hu))
        simp only [List.length_cons]
        omega
    · obtain ⟨new, V2, dists2, heq, h1, h2, h3, h4, h5, h6, h7, h8⟩ := ih V queue dists hcur
      refine ⟨new, V2, dists2, ?_, ?_, h2, h3, ?_, h5, h6, ?_, ?_⟩
      · rw [processDN, if_neg hguard]
        exact heq
      · intro u hu
        obtain ⟨ha, hb, hc⟩ := h1 u hu
        exact ⟨List.mem_cons_of_mem _ ha, hb, hc⟩
      · intro hstart u hu
        rcases List.mem_cons.mp hu with rfl | hu
        · rcases Decidable.not_and_iff_or_not.mp hguard with h | h
          · have : u = start := by
              by_contra hne
              exact h hne
            rw [this]
            exact (h3 start).mpr (Or.inr hstart)
          · have : u ∈ V := by
              by_contra hne
              exact h hne
            exact (h3 u).mpr (Or.inr this)
        · exact h4 hstart u hu
      · intro hk hnb
        exact h7 hk (fun u hu => hnb u (List.mem_cons_of_mem _ hu))
      · intro hnb
        exact h8 (fun u hu => hnb u (List.mem_cons_of_mem _ hu))

theorem dInv_step (g : Graph) (s : String) (hwf : g.WF)
    {v : String} {rest V : List String} {dists : List (String × Option Nat)} {vx : Vertex}
    (inv : DInv g s (v :: rest) V dists)
    (hfind : g.findV v = some vx) :
    ∃ new V2 dists2,
      processDN s vx.neighbours V rest dists v = (rest ++ new, V2, dists2) ∧
      DInv g s (rest ++ new) V2 dists2 ∧
      (rest ++ new).length + unvis g V2 ≤ rest.length + unvis g V := by
  have hvV : v ∈ V := inv.qv_mem v (List.mem_cons_self _ _)
  obtain ⟨dv, hdv, hshort⟩ := inv.v_rec v hvV
  have hvxmem : vx ∈ g.vertices := (Graph.findV_eq_some_facts hfind).1
  have hnbkeys : ∀ w ∈ vx.neighbours, w ∈ g.keys := fun w hw =>
    Graph.findV_isSome_iff.mp (hwf.2 vx hvxmem w hw)
  obtain ⟨new, V2, dists2, heq, h1, h2, h3, h4, h5, h6, h7, h8⟩ :=
    processDN_spec g s v vx.neighbours V rest dists hvV
  have hnewval : ∀ x ∈ new, dlookup x dists2 = some (dv + 1) := by
    intro x hx
    rw [h6 x hx, hdv]
    rfl
  have hVsub : ∀ x ∈ V, x ∈ V2 := fun x hx => (h3 x).mpr (Or.inr hx)
  have hstableV : ∀ x ∈ V, dlookup x dists2 = dlookup x dists := by
    intro x hx
    apply h5
    intro hmem
    exact (h1 x hmem).2.1 hx
  have hfront : ∀ u q, PathTo g s q u → q.length ≤ dv + 1 → u ∈ V :=
    inv.frontier v rfl dv hdv
  have hnewshort : ∀ x ∈ new, IsShortest g s x (dv + 1) := by
    intro x hx
    obtain ⟨hxnb, hxV, _⟩ := h1 x hx
    constructor
    · obtain ⟨p, hp, hplen⟩ := hshort.1
      refine ⟨p ++ [x], hp.snoc (adjacent_of_closed hwf.2 hfind hxnb), ?_⟩
      simp [hplen]
    · intro q hq
      by_contra hlt
      push_neg at hlt
      exact hxV (hfront x q hq (by omega))
  have hrestmem : ∀ r ∈ rest, r ∈ V := fun r hr => inv.qv_mem r (List.mem_cons_of_mem _ hr)
  have hrestrec : ∀ r ∈ rest, ∃ dr, dlookup r dists = some dr ∧ IsShortest g s r dr :=
    fun r hr => inv.v_rec r (hrestmem r hr)
  have hsorted_head : ∀ r ∈ rest, ∀ dr, dlookup r dists = some dr → dv ≤ dr := by
    have h := inv.sorted
    rw [List.pairwise_cons] at h
    intro r hr dr hdr
    exact h.1 r hr dv dr hdv hdr
  have htail_pairwise := (List.pairwise_cons.mp inv.sorted).2
  have hband_old : ∀ r ∈ rest, ∀ dr, dlookup r dists = some dr → dr ≤ dv + 1 := by
    intro r hr dr hdr
    exact inv.band v rfl r (List.mem_cons_of_mem _ hr) dv dr hdv hdr
  have hsorted2 : (rest ++ new).Pairwise (fun a b => ∀ da db, dlookup a dists2 = some da →
      dlookup b dists2 = some db → da ≤ db) := by
    rw [List.pairwise_append]
    refine ⟨?_, ?_, ?_⟩
    · refine htail_pairwise.imp_of_mem ?_
      intro a b ha hb hrel da db hda hdb
      rw [hstableV a (hrestmem a ha)] at hda
      rw [hstableV b (hrestmem b hb)] at hdb
      exact hrel da db hda hdb
    · apply List.pairwise_of_forall_mem_list
      intro a ha b hb da db hda hdb
      rw [hnewval a ha] at hda
      rw [hnewval b hb] at hdb
      cases hda
      cases hdb
      omega
    · intro a ha b hb da db hda hdb
      rw [hstableV a (hrestmem a ha)] at hda
      rw [hnewval b hb] at hdb
      cases hdb
      exact hband_old a ha da hda
  have hval2 : ∀ x ∈ rest ++ new, ∀ dx, dlookup x dists2 = some dx → dx ≤ dv + 1 := by
    intro x hx dx hdx
    rcases List.mem_append.mp hx with h | h
    · rw [hstableV x (hrestmem x h)] at hdx
      exact hband_old x h dx hdx
    · rw [hnewval x h] at hdx
      cases hdx
      omega
  have hproc2 : ∀ x ∈ V2, x ∉ rest ++ new → ∀ w ∈ g.neighboursOf x, w ∈ V2 := by
    intro x hx hnq w hw
    rcases (h3 x).mp hx with hxnew | hxV
    · exact absurd (List.mem_append_right _ hxnew) hnq
    · by_cases hxv : x = v
      · subst hxv
        have hno : g.neighboursOf x = vx.neighbours := by
          unfold Graph.neighboursOf
          rw [hfind]
        rw [hno] at hw
        exact h4 inv.s_mem w hw
      · have hninq : x ∉ v :: rest := by
          rintro hmem
          rcases List.mem_cons.mp hmem with h | h
          · exact hxv h
          · exact hnq (List.mem_append_left _ h)
        exact hVsub w (inv.processed x hxV hninq w hw)
  have hfront2 : ∀ h2 ∈ (rest ++ new).head?, ∀ dh, dlookup h2 dists2 = some dh →
      ∀ u q, PathTo g s q u → q.length ≤ dh + 1 → u ∈ V2 := by
    intro h2 hh2 dh hdh u q hq hlen
    have hh2mem : h2 ∈ rest ++ new := by
      cases hrn : rest ++ new with
      | nil =>
        rw [hrn] at hh2
        exact absurd hh2 (by simp)
      | cons q0 qt =>
        rw [hrn] at hh2
        simp only [List.head?_cons, Option.mem_def, Option.some.injEq] at hh2
        rw [← hh2]
        exact List.mem_cons_self _ _
    have hdhub : dh ≤ dv + 1 := hval2 h2 hh2mem dh hdh
    by_cases hqp : q.length ≤ dv + 1
    · exact hVsub u (hfront u q hq hqp)
    · have hqlen : q.length = dv + 2 := by omega
      have hdhlb : dv + 1 ≤ dh := by omega
      cases hq with
      | base =>
        exfalso
        simp only [List.length_cons, List.length_nil] at hqlen
        omega
      | @snoc q' v0 _ hq' hadj =>
        have hq'len : q'.length = dv + 1 := by
          simp only [List.length_append, List.length_cons, List.length_nil] at hqlen
          omega
        have hv0V : v0 ∈ V := hfront v0 q' hq' (by omega)
        obtain ⟨d0, hd0, hshort0⟩ := inv.v_rec v0 hv0V
        have hd0ub : d0 ≤ dv := by
          have := hshort0.2 q' hq'
          omega
        have hv0ninq : v0 ∉ rest ++ new := by
          intro hmem
          have hd0' : dlookup v0 dists2 = some d0 := by
            rw [hstableV v0 hv0V]
            exact hd0
          have hge : dh ≤ d0 := by
            cases hrn : rest ++ new with
            | nil =>
              rw [hrn] at hmem
              simp at hmem
            | cons q0 qt =>
              rw [hrn] at hh2 hmem
              simp only [List.head?_cons, Option.mem_def, Option.some.injEq] at hh2
              have hp2 := hsorted2
              rw [hrn, List.pairwise_cons] at hp2
              rcases List.mem_cons.mp hmem with h | h
              · rw [← hh2] at hdh
                rw [h] at hd0'
                rw [hd0'] at hdh
                cases hdh
                omega
              · rw [← hh2] at hdh
                exact hp2.1 v0 h dh d0 hdh hd0'
          omega
        have hadj' : u ∈ g.neighboursOf v0 := by
          rw [mem_neighboursOf_iff]
          rcases adjacent_true_iff.mp hadj with ⟨va, hva, _, hu⟩
          exact ⟨va, hva, hu⟩
        exact hproc2 v0 (hVsub v0 hv0V) hv0ninq u hadj'
  refine ⟨new, V2, dists2, heq, ?_, ?_⟩
  · refine ⟨(h3 s).mpr (Or.inr inv.s_mem), h7 inv.dkeys hnbkeys, ?_, ?_, ?_, ?_, ?_,
      hsorted2, ?_, hproc2, hfront2⟩
    · intro x hx
      rcases List.mem_append.mp hx with h | h
      · exact hVsub x (hrestmem x h)
      · exact (h3 x).mpr (Or.inl h)
    · rw [List.nodup_append]
      refine ⟨(List.nodup_cons.mp inv.qv_nodup).2, h2, ?_⟩
      intro x hx hx2
      exact (h1 x hx2).2.1 (hrestmem x hx)
    · intro x hx
      rcases (h3 x).mp hx with h | h
      · exact ⟨dv + 1, hnewval x h, hnewshort x h⟩
      · obtain ⟨dx, hdx, hsx⟩ := inv.v_rec x h
        exact ⟨dx, by rw [hstableV x h]; exact hdx, hsx⟩
    · intro x hx
      have hxnew : x ∉ new := fun hm => hx ((h3 x).mpr (Or.inl hm))
      have hxV : x ∉ V := fun hm => hx ((h3 x).mpr (Or.inr hm))
      rw [h5 x hxnew]
      exact inv.un_rec x hxV
    · intro x hx
      rcases (h3 x).mp hx with h | h
      · exact Graph.findV_isSome_iff.mpr (hnbkeys x (h1 x h).1)
      · exact inv.v_keys x h
    · intro h2 hh2 x hx dh dx hdh hdx
      have hh2mem : h2 ∈ rest ++ new := by
        cases hrn : rest ++ new with
        | nil =>
          rw [hrn] at hh2
          exact absurd hh2 (by simp)
        | cons q0 qt =>
          rw [hrn] at hh2
          simp only [List.head?_cons, Option.mem_def, Option.some.injEq] at hh2
          rw [← hh2]
          exact List.mem_cons_self _ _
      have hxub : dx ≤ dv + 1 := hval2 x hx dx hdx
      have hdhlb : dv ≤ dh := by
        rcases List.mem_append.mp hh2mem with h | h
        · rw [hstableV h2 (hrestmem h2 h)] at hdh
          exact hsorted_head h2 h dh hdh
        · rw [hnewval h2 h] at hdh
          cases hdh
          omega
      omega
  · have h := h8 hnbkeys
    simp only [List.length_append]
    omega

theorem dInv_empty_reach (g : Graph) (s : String) (V : List String)
    (dists : List (String × Option Nat)) (inv : DInv g s [] V dists) :
    ∀ u, Reaches g s u → u ∈ V :=
  visited_closed_reach g s V inv.s_mem (fun v hv w hw => inv.processed v hv (by simp) w hw)

theorem sdLoop_run (g : Graph) (s : String) (hwf : g.WF) :
    ∀ (fuel : Nat) (Q V : List String) (dists : List (String × Option Nat)),
      DInv g s Q V dists → Q.length + unvis g V ≤ fuel →
      ∃ d2, sdLoop g s fuel Q V dists = some d2 ∧
        d2.map Prod.fst = g.keys ∧
        (∀ u, Reaches g s u → ∃ d, dlookup u d2 = some d ∧ IsShortest g s u d) ∧
        (∀ u, ¬ Reaches g s u → dlookup u d2 = none) := by
  intro fuel
  induction fuel with
  | zero =>
    intro Q V dists inv hcount
    cases Q with
    | nil =>
      refine ⟨dists, rfl, inv.dkeys, ?_, ?_⟩
      · intro u hu
        exact inv.v_rec u (dInv_empty_reach g s V dists inv u hu)
      · intro u hu
        apply inv.un_rec
        intro huV
        obtain ⟨d, _, hsd⟩ := inv.v_rec u huV
        exact hu hsd.reaches
    | cons e rest => simp at hcount
  | succ n ih =>
    intro Q V dists inv hcount
    cases Q with
    | nil =>
      refine ⟨dists, rfl, inv.dkeys, ?_, ?_⟩
      · intro u hu
        exact inv.v_rec u (dInv_empty_reach g s V dists inv u hu)
      · intro u hu
        apply inv.un_rec
        intro huV
        obtain ⟨d, _, hsd⟩ := inv.v_rec u huV
        exact hu hsd.reaches
    | cons v rest =>
      have hvV : v ∈ V := inv.qv_mem v (List.mem_cons_self _ _)
      obtain ⟨vx, hfind⟩ := Option.isSome_iff_exists.mp (inv.v_keys v hvV)
      obtain ⟨new, V2, dists2, heq, inv2, hcount2⟩ := dInv_step g s hwf inv hfind
      obtain ⟨d2, hd2, hk, hr, hnr⟩ := ih (rest ++ new) V2 dists2 inv2 (by
        simp only [List.length_cons] at hcount
        omega)
      refine ⟨d2, ?_, hk, hr, hnr⟩
      show sdLoop g s (n + 1) (v :: rest) V dists = some d2
      simp only [sdLoop, hfind, heq]
      exact hd2

theorem alookup_isSome_of_mem_fst {α : Type} (k : String) (l : List (String × α))
    (h : k ∈ l.map Prod.fst) : (alookup k l).isSome := by
  induction l with
  | nil => simp at h
  | cons e es ih =>
    by_cases he : e.1 = k
    · simp [alookup, he]
    · simp only [List.map_cons, List.mem_cons] at h
      rcases h with h | h
      · exact absurd h.symm he
      · simp [alookup, he, ih h]

theorem alookup_filter_ne {α : Type} (k s : String) (l : List (String × α)) (hk : k ≠ s) :
    alookup k (l.filter (fun e => decide (e.1 ≠ s))) = alookup k l := by
  induction l with
  | nil => rfl
  | cons e es ih =>
    rw [List.filter_cons]
    by_cases hes : e.1 = s
    · rw [if_neg (by simp [hes]), ih, alookup,
        if_neg (by rw [hes]; exact fun hh => hk hh.symm)]
    · rw [if_pos (by simp [hes]), alookup, alookup]
      by_cases hek : e.1 = k
      · rw [if_pos hek, if_pos hek]
      · rw [if_neg hek, if_neg hek, ih]

theorem map_fst_filter_ne {α : Type} (s : String) (l : List (String × α)) :
    (l.filter (fun e => decide (e.1 ≠ s))).map Prod.fst =
      (l.map Prod.fst).filter (fun k => decide (k ≠ s)) := by
  induction l with
  | nil => rfl
  | cons e es ih =>
    rw [List.filter_cons, List.map_cons, List.filter_cons]
    by_cases hes : e.1 = s
    · rw [if_neg (by simp [hes]), if_neg (by simp [hes]), ih]
    · rw [if_pos (by simp [hes]), if_pos (by simp [hes]), List.map_cons, ih]

theorem shortest_distance_bfs_run (g : Graph) (s : String) (hwf : g.WF)
    (hs : (g.findV s).isSome) :
    ∃ r, g.shortest_distance_bfs s = .ok r ∧
      r.map Prod.fst = g.keys.filter (fun k => decide (k ≠ s)) ∧
      (∀ u, u ≠ s → Reaches g s u → ∃ d, alookup u r = some (some d) ∧ IsShortest g s u d) ∧
      (∀ u, u ≠ s → u ∈ g.keys → ¬ Reaches g s u → alookup u r = some none) := by
  have hskeys : s ∈ g.keys := Graph.findV_isSome_iff.mp hs
  have hinitfst : (g.vertices.map (fun vx => (vx.item, (none : Option Nat)))).map Prod.fst
      = g.keys := by
    rw [List.map_map]
    rfl
  have hd0keys : (setD s (some 0)
      (g.vertices.map (fun vx => (vx.item, (none : Option Nat))))).map Prod.fst = g.keys := by
    rw [setD_fst_of_mem _ _ _ (by rw [hinitfst]; exact hskeys), hinitfst]
  have hd0s : dlookup s (setD s (some 0)
      (g.vertices.map (fun vx => (vx.item, (none : Option Nat))))) = some 0 :=
    dlookup_setD_self _ _ _
  have hd0other : ∀ x, x ≠ s → dlookup x (setD s (some 0)
      (g.vertices.map (fun vx => (vx.item, (none : Option Nat))))) = none := by
    intro x hx
    rw [dlookup_setD_other _ _ _ _ hx]
    unfold dlookup
    rw [alookup_map_const_none]
    by_cases hmem : x ∈ g.vertices.map Vertex.item
    · rw [if_pos hmem]
      rfl
    · rw [if_neg hmem]
      rfl
  have hshort_s : IsShortest g s s 0 := by
    constructor
    · exact ⟨[s], PathTo.base, rfl⟩
    · intro q hq
      exact hq.length_pos
  have inv0 : DInv g s [s] [s]
      (setD s (some 0) (g.vertices.map (fun vx => (vx.item, (none : Option Nat))))) := by
    refine ⟨by simp, hd0keys, ?_, by simp, ?_, ?_, ?_, by simp, ?_, ?_, ?_⟩
    · intro x hx
      exact hx
    · intro x hx
      simp only [List.mem_singleton] at hx
      subst hx
      exact ⟨0, hd0s, hshort_s⟩
    · intro x hx
      simp only [List.mem_singleton] at hx
      exact hd0other x hx
    · intro x hx
      simp only [List.mem_singleton] at hx
      subst hx
      exact hs
    · intro h hh v hv dh dv hdh hdv
      simp only [List.head?_cons, Option.mem_def, Option.some.injEq] at hh
      simp only [List.mem_singleton] at hv
      subst hv
      rw [← hh, hd0s] at hdh
      rw [hd0s] at hdv
      cases hdh
      cases hdv
      omega
    · intro x hx hnin
      simp only [List.mem_singleton] at hx
      simp only [List.mem_singleton] at hnin
      exact absurd hx hnin
    · intro h hh dh hdh u q hq hlen
      simp only [List.head?_cons, Option.mem_def, Option.some.injEq] at hh
      rw [← hh, hd0s] at hdh
      cases hdh
      have h1 := hq.length_pos
      have hu : u = s := hq.length_one_eq (by omega)
      simp [hu]
  have hcount0 : ([s] : List String).length + unvis g [s] ≤ g.vertices.length + 1 := by
    have h := unvis_le_length g [s]
    simp only [List.length_cons, List.length_nil]
    omega
  obtain ⟨d2, hd2, hk, hr, hnr⟩ :=
    sdLoop_run g s hwf (g.vertices.length + 1) [s] [s] _ inv0 hcount0
  refine ⟨d2.filter (fun e => decide (e.1 ≠ s)), ?_, ?_, ?_, ?_⟩
  · unfold Graph.shortest_distance_bfs
    rw [if_pos hs]
    show Except.ok (((sdLoop g s (g.vertices.length + 1) [s] [s] (setD s (some 0)
      (g.vertices.map (fun vx => (vx.item, (none : Option Nat)))))).getD []).filter
        (fun e => decide (e.1 ≠ s))) = _
    rw [hd2]
    rfl
  · rw [map_fst_filter_ne, hk]
  · intro u hu hru
    obtain ⟨d, hd, hsd⟩ := hr u hru
    refine ⟨d, ?_, hsd⟩
    rw [alookup_filter_ne u s d2 hu]
    unfold dlookup at hd
    cases hl : alookup u d2 with
    | none =>
      rw [hl] at hd
      exact Option.noConfusion hd
    | some o =>
      rw [hl] at hd
      have ho : o = some d := hd
      rw [ho]
  · intro u hu hukeys hru
    have hd := hnr u hru
    rw [alookup_filter_ne u s d2 hu]
    have hmem : u ∈ d2.map Prod.fst := by
      rw [hk]
      exact hukeys
    have hisome := alookup_isSome_of_mem_fst u d2 hmem
    unfold dlookup at hd
    cases hl : alookup u d2 with
    | none =>
      rw [hl] at hisome
      exact absurd hisome (by simp)
    | some o =>
      rw [hl] at hd
      have ho : o = none := hd
      rw [ho]

/- Soundness of the filtered BFS: any returned nonempty result is a genuine
path in the underlying graph. -/

theorem processFNbrs_ok_spec (g : Graph) (key : String) (lower upper : Rat)
    (movies : List (String × MovieRec)) (current : String) (nbrs : List String) :
    ∀ (V : List String) (queue : List (String × List String)) (path : List String)
      (q2 : List (String × List String)) (V2 : List String),
      processFNbrs g key lower upper movies current nbrs V queue path = .ok (q2, V2) →
      ∃ new, q2 = queue ++ new ∧ ∀ e ∈ new, ∃ w, e = (w, path ++ [w]) ∧ w ∈ nbrs := by
  induction nbrs with
  | nil =>
    intro V queue path q2 V2 h
    rw [processFNbrs] at h
    injection h with h
    injection h with h1 h2
    exact ⟨[], by simp [← h1], by simp⟩
  | cons w ws ih =>
    intro V queue path q2 V2 h
    by_cases hwV : w ∈ V
    · rw [processFNbrs, if_pos hwV] at h
      obtain ⟨new, hq, hnew⟩ := ih V queue path q2 V2 h
      refine ⟨new, hq, ?_⟩
      intro e he
      obtain ⟨u, hu, humem⟩ := hnew e he
      exact ⟨u, hu, List.mem_cons_of_mem _ humem⟩
    · rw [processFNbrs, if_neg hwV] at h
      cases hfb : g.filter_by_key (current, w) key (lower, upper) movies with
      | error e =>
        rw [hfb] at h
        exact Except.noConfusion h
      | ok res =>
        rw [hfb] at h
        have h2 : processFNbrs g key lower upper movies current ws
            (sp_bfs_filtered_helper res.1 V w (queue, path)).1
            (sp_bfs_filtered_helper res.1 V w (queue, path)).2 path = .ok (q2, V2) := h
        unfold sp_bfs_filtered_helper at h2
        by_cases hvalid : res.1 = true
        · rw [if_pos hvalid] at h2
          obtain ⟨new, hq, hnew⟩ := ih (w :: V) (queue ++ [(w, path ++ [w])]) path q2 V2 h2
          refine ⟨(w, path ++ [w]) :: new, by rw [hq]; simp, ?_⟩
          intro e he
          rcases List.mem_cons.mp he with rfl | he
          · exact ⟨w, rfl, List.mem_cons_self _ _⟩
          · obtain ⟨u, hu, humem⟩ := hnew e he
            exact ⟨u, hu, List.mem_cons_of_mem _ humem⟩
        · rw [if_neg hvalid] at h2
          obtain ⟨new, hq, hnew⟩ := ih V queue path q2 V2 h2
          refine ⟨new, hq, ?_⟩
          intro e he
          obtain ⟨u, hu, humem⟩ := hnew e he
          exact ⟨u, hu, List.mem_cons_of_mem _ humem⟩

theorem bfsFLoop_sound (g : Graph) (s t key : String) (lower upper : Rat)
    (movies : List (String × MovieRec)) (hc : g.Closed) :
    ∀ (fuel : Nat) (Q : List (String × List String)) (V : List String),
      (∀ e ∈ Q, PathTo g s e.2 e.1) →
      ∀ r, bfsFLoop g t key lower upper movies fuel Q V = some (.ok r) → r ≠ [] →
      PathTo g s r t := by
  intro fuel
  induction fuel with
  | zero =>
    intro Q V hQ r hr hne
    cases Q with
    | nil =>
      rw [bfsFLoop] at hr
      injection hr with hr
      injection hr with hr
      exact absurd hr.symm hne
    | cons e rest =>
      rw [bfsFLoop] at hr
      exact Option.noConfusion hr
  | succ n ih =>
    intro Q V hQ r hr hne
    cases Q with
    | nil =>
      rw [bfsFLoop] at hr
      injection hr with hr
      injection hr with hr
      exact absurd hr.symm hne
    | cons e rest =>
      obtain ⟨v, p⟩ := e
      by_cases hvt : v = t
      · subst hvt
        rw [bfsFLoop, if_pos rfl] at hr
        injection hr with hr
        injection hr with hr
        rw [← hr]
        exact hQ (v, p) (List.mem_cons_self _ _)
      · rw [bfsFLoop, if_neg hvt] at hr
        cases hfind : g.findV v with
        | none =>
          rw [hfind] at hr
          exact Option.noConfusion hr
        | some vx =>
          rw [hfind] at hr
          have hr2 : (match processFNbrs g key lower upper movies v vx.neighbours V rest p with
              | Except.error e => some (Except.error e)
              | Except.ok step =>
                bfsFLoop g t key lower upper movies n step.1 step.2) = some (.ok r) := hr
          cases hpf : processFNbrs g key lower upper movies v vx.neighbours V rest p with
          | error e =>
            rw [hpf] at hr2
            have hr3 : some (Except.error e : Except PyErr (List String)) = some (.ok r) := hr2
            injection hr3 with hr3
            exact Except.noConfusion hr3
          | ok st =>
            rw [hpf] at hr2
            have hr3 : bfsFLoop g t key lower upper movies n st.1 st.2 = some (.ok r) := hr2
            obtain ⟨new, hq, hnew⟩ :=
              processFNbrs_ok_spec g key lower upper movies v vx.neighbours V rest p
                st.1 st.2 hpf
            apply ih st.1 st.2 ?_ r hr3 hne
            intro e he
            rw [hq] at he
            rcases List.mem_append.mp he with he' | he'
            · exact hQ e (List.mem_cons_of_mem _ he')
            · obtain ⟨u, rfl, humem⟩ := hnew e he'
              exact (hQ (v, p) (List.mem_cons_self _ _)).snoc
                (adjacent_of_closed hc hfind humem)

theorem shortest_path_bfs_filtered_sound (g : Graph) (items : String × String)
    (key : String) (thresholds : Rat × Rat) (movies : List (String × MovieRec))
    (hc : g.Closed) {r : List String}
    (hr : g.shortest_path_bfs_filtered items key thresholds movies = .ok r)
    (hne : r ≠ []) : PathTo g items.1 r items.2 := by
  unfold Graph.shortest_path_bfs_filtered at hr
  by_cases hpres : (g.findV items.1).isSome ∧ (g.findV items.2).isSome
  · rw [if_pos hpres] at hr
    cases hl : bfsFLoop g items.2 key thresholds.1 thresholds.2 movies
        (g.vertices.length + 1) [(items.1, [items.1])] [items.1] with
    | none =>
      rw [hl] at hr
      simp only [Option.getD] at hr
      injection hr with hr
      exact absurd hr.symm hne
    | some res =>
      rw [hl] at hr
      simp only [Option.getD] at hr
      subst hr
      apply bfsFLoop_sound g items.1 items.2 key thresholds.1 thresholds.2 movies hc
        (g.vertices.length + 1) [(items.1, [items.1])] [items.1] ?_ r hl hne
      intro e he
      simp only [List.mem_singleton] at he
      subst he
      exact PathTo.base
  · rw [if_neg hpres] at hr
    exact Except.noConfusion hr

/- The invalid-key failure of the filtered BFS. -/

theorem filter_by_key_badkey (g : Graph) (a b key : String) (lower upper : Rat)
    (movies : List (String × MovieRec))
    (hkey1 : key ≠ "release date") (hkey2 : key ≠ "rating")
    {va vb : Vertex} (ha : g.findV a = some va) (hb : g.findV b = some vb) :
    g.filter_by_key (a, b) key (lower, upper) movies = .error .keyError := by
  unfold Graph.filter_by_key
  simp only [ha, hb, if_neg hkey1, if_neg hkey2]

theorem processFNbrs_badkey (g : Graph) (key : String) (lower upper : Rat)
    (movies : List (String × MovieRec)) (current : String)
    (hkey1 : key ≠ "release date") (hkey2 : key ≠ "rating")
    {vc : Vertex} (hvc : g.findV current = some vc) :
    ∀ (nbrs V : List String) (queue : List (String × List String)) (path : List String),
      (∀ w ∈ nbrs, (g.findV w).isSome) →
      (∃ w ∈ nbrs, w ∉ V) →
      processFNbrs g key lower upper movies current nbrs V queue path =
        .error .keyError := by
  intro nbrs
  induction nbrs with
  | nil =>
    intro V queue path _ hex
    obtain ⟨w, hw, _⟩ := hex
    simp at hw
  | cons w ws ih =>
    intro V queue path hpres hex
    by_cases hwV : w ∈ V
    · obtain ⟨u, hu, huV⟩ := hex
      have huws : u ∈ ws := by
        rcases List.mem_cons.mp hu with rfl | h
        · exact absurd hwV huV
        · exact h
      rw [processFNbrs, if_pos hwV]
      exact ih V queue path (fun x hx => hpres x (List.mem_cons_of_mem _ hx)) ⟨u, huws, huV⟩
    · rw [processFNbrs, if_neg hwV]
      obtain ⟨vw, hvw⟩ :=
        Option.isSome_iff_exists.mp (hpres w (List.mem_cons_self _ _))
      rw [filter_by_key_badkey g current w key lower upper movies hkey1 hkey2 hvc hvw]

theorem shortest_path_bfs_filtered_badkey (g : Graph) (items : String × String)
    (key : String) (thresholds : Rat × Rat) (movies : List (String × MovieRec))
    (hwf : g.WF) (hkey1 : key ≠ "release date") (hkey2 : key ≠ "rating")
    {vs : Vertex} (hvs : g.findV items.1 = some vs)
    (ht : (g.findV items.2).isSome) (hst : items.1 ≠ items.2)
    (hnb : ∃ w ∈ vs.neighbours, w ≠ items.1) :
    g.shortest_path_bfs_filtered items key thresholds movies = .error .keyError := by
  have hs : (g.findV items.1).isSome = true := by
    rw [hvs]
    rfl
  have hpres : ∀ w ∈ vs.neighbours, (g.findV w).isSome := fun w hw =>
    hwf.2 vs (Graph.findV_eq_some_facts hvs).1 w hw
  obtain ⟨w, hw, hws⟩ := hnb
  have hex : ∃ u ∈ vs.neighbours, u ∉ ([items.1] : List String) := by
    refine ⟨w, hw, ?_⟩
    simp [hws]
  have hpf := processFNbrs_badkey g key thresholds.1 thresholds.2 movies items.1
    hkey1 hkey2 hvs vs.neighbours [items.1] [] [items.1] hpres hex
  have hloop : bfsFLoop g items.2 key thresholds.1 thresholds.2 movies
      (g.vertices.length + 1) [(items.1, [items.1])] [items.1] =
      some (.error .keyError) := by
    rw [bfsFLoop, if_neg hst, hvs]
    have hred : (match processFNbrs g key thresholds.1 thresholds.2 movies items.1
        vs.neighbours [items.1] [] [items.1] with
        | Except.error e => some (Except.error e)
        | Except.ok step => bfsFLoop g items.2 key thresholds.1 thresholds.2 movies
            g.vertices.length step.1 step.2) =
        (some (.error .keyError) : Option (Except PyErr (List String))) := by
      rw [hpf]
    exact hred
  unfold Graph.shortest_path_bfs_filtered
  rw [if_pos ⟨hs, ht⟩, hloop]
  rfl

/- Characterization of the mutation operations, used for the builder proofs
and the edge invariant. -/

theorem addNb_item (x : String) (vx : Vertex) : (Graph.addNb x vx).item = vx.item := by
  unfold Graph.addNb
  by_cases h : x ∈ vx.neighbours <;> simp [h]

theorem addNb_neighbours_mem (x y : String) (vx : Vertex) :
    y ∈ (Graph.addNb x vx).neighbours ↔ (y ∈ vx.neighbours ∨ y = x) := by
  unfold Graph.addNb
  by_cases h : x ∈ vx.neighbours
  · rw [if_pos h]
    constructor
    · exact fun hh => Or.inl hh
    · rintro (hh | rfl)
      · exact hh
      · exact h
  · rw [if_neg h]
    simp

theorem addNb_appearances (x : String) (vx : Vertex) :
    (Graph.addNb x vx).appearances = vx.appearances := by
  unfold Graph.addNb
  by_cases h : x ∈ vx.neighbours <;> simp [h]

theorem find?_item_map_pres (l : List Vertex) (x : String) (u : Vertex → Vertex)
    (hu : ∀ vx, (u vx).item = vx.item) :
    (l.map u).find? (fun vx => vx.item == x) = (l.find? (fun vx => vx.item == x)).map u := by
  induction l with
  | nil => simp
  | cons vx l ih =>
    by_cases h : vx.item = x
    · rw [List.map_cons, find?_item_cons_pos x (u vx) _ (by rw [hu]; exact h),
        find?_item_cons_pos x vx _ h]
      rfl
    · rw [List.map_cons, find?_item_cons_neg x (u vx) _ (by rw [hu]; exact h),
        find?_item_cons_neg x vx _ h, ih]

theorem add_edge_eq {g : Graph} {a b : String}
    (ha : (g.findV a).isSome) (hb : (g.findV b).isSome) :
    g.add_edge a b = .ok ((g.update a (Graph.addNb b)).update b (Graph.addNb a)) := by
  unfold Graph.add_edge
  rw [if_pos ⟨ha, hb⟩]

theorem add_edge_presence {g : Graph} (a b x : String) :
    (((g.update a (Graph.addNb b)).update b (Graph.addNb a)).findV x).isSome =
      (g.findV x).isSome := by
  rw [Graph.update_isSome _ _ _ _ (addNb_item a), Graph.update_isSome _ _ _ _ (addNb_item b)]

theorem add_edge_keys {g : Graph} (a b : String) :
    ((g.update a (Graph.addNb b)).update b (Graph.addNb a)).keys = g.keys := by
  rw [Graph.keys_update _ _ _ (addNb_item a), Graph.keys_update _ _ _ (addNb_item b)]

theorem add_edge_findV_other {g : Graph} {a b x : String} (hxa : x ≠ a) (hxb : x ≠ b) :
    ((g.update a (Graph.addNb b)).update b (Graph.addNb a)).findV x = g.findV x := by
  rw [Graph.findV_update_other _ _ _ _ (addNb_item a) hxb,
    Graph.findV_update_other _ _ _ _ (addNb_item b) hxa]

theorem add_edge_findV_a {g : Graph} {a b : String} (hab : a ≠ b) :
    ((g.update a (Graph.addNb b)).update b (Graph.addNb a)).findV a =
      (g.findV a).map (Graph.addNb b) := by
  rw [Graph.findV_update_other _ _ _ _ (addNb_item a) hab,
    Graph.findV_update_self _ _ _ (addNb_item b)]

theorem add_edge_findV_b {g : Graph} {a b : String} (hab : a ≠ b) :
    ((g.update a (Graph.addNb b)).update b (Graph.addNb a)).findV b =
      ((g.findV b).map (Graph.addNb a)) := by
  rw [Graph.findV_update_self _ _ _ (addNb_item a),
    Graph.findV_update_other _ _ _ _ (addNb_item b) (fun hh => hab hh.symm)]

theorem add_edge_adjacent {g : Graph} {a b : String} (hab : a ≠ b)
    (ha : (g.findV a).isSome) (hb : (g.findV b).isSome) (x y : String) :
    ((g.update a (Graph.addNb b)).update b (Graph.addNb a)).adjacent x y = true ↔
      (g.adjacent x y = true ∨ (x = a ∧ y = b) ∨ (x = b ∧ y = a)) := by
  have hpres := add_edge_presence (g := g) a b
  by_cases hxa : x = a
  · subst hxa
    obtain ⟨va, hva⟩ := Option.isSome_iff_exists.mp ha
    have hfa := add_edge_findV_a (g := g) hab
    rw [hva] at hfa
    constructor
    · intro h
      rcases adjacent_true_iff.mp h with ⟨vx2, hvx2, hy2, hymem⟩
      rw [hfa] at hvx2
      injection hvx2 with hvx2
      rw [← hvx2] at hymem
      rcases (addNb_neighbours_mem b y va).mp hymem with hy | rfl
      · refine Or.inl (adjacent_true_iff.mpr ⟨va, hva, ?_, hy⟩)
        rw [← hpres y]
        exact hy2
      · exact Or.inr (Or.inl ⟨rfl, rfl⟩)
    · intro h
      apply adjacent_true_iff.mpr
      refine ⟨Graph.addNb b va, hfa, ?_, ?_⟩
      · rcases h with h | ⟨_, rfl⟩ | ⟨hxb, _⟩
        · rcases adjacent_true_iff.mp h with ⟨vx0, _, hy0, _⟩
          rw [hpres y]
          exact hy0
        · rw [hpres y]
          exact hb
        · exact absurd hxb hab
      · rcases h with h | ⟨_, rfl⟩ | ⟨hxb, _⟩
        · rcases adjacent_true_iff.mp h with ⟨vx0, hvx0, _, hymem⟩
          rw [hva] at hvx0
          injection hvx0 with hvx0
          rw [addNb_neighbours_mem]
          exact Or.inl (hvx0 ▸ hymem)
        · rw [addNb_neighbours_mem]
          exact Or.inr rfl
        · exact absurd hxb hab
  · by_cases hxb : x = b
    · subst hxb
      obtain ⟨vb, hvb⟩ := Option.isSome_iff_exists.mp hb
      have hfb := add_edge_findV_b (g := g) hab
      rw [hvb] at hfb
      constructor
      · intro h
        rcases adjacent_true_iff.mp h with ⟨vx2, hvx2, hy2, hymem⟩
        rw [hfb] at hvx2
        injection hvx2 with hvx2
        rw [← hvx2] at hymem
        rcases (addNb_neighbours_mem a y vb).mp hymem with hy | rfl
        · refine Or.inl (adjacent_true_iff.mpr ⟨vb, hvb, ?_, hy⟩)
          rw [← hpres y]
          exact hy2
        · exact Or.inr (Or.inr ⟨rfl, rfl⟩)
      · intro h
        apply adjacent_true_iff.mpr
        refine ⟨Graph.addNb a vb, hfb, ?_, ?_⟩
        · rcases h with h | ⟨hba, _⟩ | ⟨_, rfl⟩
          · rcases adjacent_true_iff.mp h with ⟨vx0, _, hy0, _⟩
            rw [hpres y]
            exact hy0
          · exact absurd hba hxa
          · rw [hpres y]
            exact ha
        · rcases h with h | ⟨hba, _⟩ | ⟨_, rfl⟩
          · rcases adjacent_true_iff.mp h with ⟨vx0, hvx0, _, hymem⟩
            rw [hvb] at hvx0
            injection hvx0 with hvx0
            rw [addNb_neighbours_mem]
            exact Or.inl (hvx0 ▸ hymem)
          · exact absurd hba hxa
          · rw [addNb_neighbours_mem]
            exact Or.inr rfl
    · have hfx := add_edge_findV_other (g := g) hxa hxb
      constructor
      · intro h
        rcases adjacent_true_iff.mp h with ⟨vx2, hvx2, hy2, hymem⟩
        rw [hfx] at hvx2
        refine Or.inl (adjacent_true_iff.mpr ⟨vx2, hvx2, ?_, hymem⟩)
        rw [← hpres y]
        exact hy2
      · intro h
        rcases h with h | ⟨hxa', _⟩ | ⟨hxb', _⟩
        · rcases adjacent_true_iff.mp h with ⟨vx0, hvx0, hy0, hymem⟩
          apply adjacent_true_iff.mpr
          refine ⟨vx0, by rw [hfx]; exact hvx0, ?_, hymem⟩
          rw [hpres y]
          exact hy0
        · exact absurd hxa' hxa
        · exact absurd hxb' hxb

theorem adjacent_update_pres {g : Graph} {k : String} {f : Vertex → Vertex}
    (hitem : ∀ vx, (f vx).item = vx.item)
    (hnbrs : ∀ vx, (f vx).neighbours = vx.neighbours) (x y : String) :
    (g.update k f).adjacent x y = g.adjacent x y := by
  have hfx : (g.update k f).findV x = (if x = k then (g.findV x).map f else g.findV x) := by
    by_cases hxk : x = k
    · rw [if_pos hxk, hxk, Graph.findV_update_self _ _ _ hitem]
    · rw [if_neg hxk, Graph.findV_update_other _ _ _ _ hitem hxk]
  have hfy : (g.update k f).findV y = (if y = k then (g.findV y).map f else g.findV y) := by
    by_cases hyk : y = k
    · rw [if_pos hyk, hyk, Graph.findV_update_self _ _ _ hitem]
    · rw [if_neg hyk, Graph.findV_update_other _ _ _ _ hitem hyk]
  unfold Graph.adjacent
  rw [hfx, hfy]
  by_cases hxk : x = k
  · rw [if_pos hxk]
    by_cases hyk : y = k
    · rw [if_pos hyk]
      cases g.findV x <;> cases g.findV y <;> simp [hnbrs]
    · rw [if_neg hyk]
      cases g.findV x <;> cases g.findV y <;> simp [hnbrs]
  · rw [if_neg hxk]
    by_cases hyk : y = k
    · rw [if_pos hyk]
      cases g.findV x <;> cases g.findV y <;> simp [hnbrs]
    · rw [if_neg hyk]

theorem adjacent_add_vertex {g : Graph} (hc : g.Closed) (i kd x y : String) :
    (g.add_vertex i kd).adjacent x y = g.adjacent x y := by
  by_cases hpres : (g.findV i).isSome
  · rw [Graph.add_vertex_of_present hpres]
  · have hn : g.findV i = none := Option.not_isSome_iff_eq_none.mp hpres
    rw [Graph.adjacent, Graph.adjacent, Graph.findV_add_vertex_new hn x,
      Graph.findV_add_vertex_new hn y]
    by_cases hxi : x = i
    · subst hxi
      rw [if_pos rfl, hn]
      cases hfy : (if y = x then some (⟨x, kd, [], [], 0, (0, 0, 0)⟩ : Vertex)
          else g.findV y) <;> simp
    · rw [if_neg hxi]
      cases hfx : g.findV x with
      | none => rfl
      | some vx =>
        by_cases hyi : y = i
        · subst hyi
          rw [if_pos rfl, hn]
          have : y ∉ vx.neighbours := by
            intro hmem
            have := hc vx (Graph.findV_eq_some_facts hfx).1 y hmem
            rw [hn] at this
            exact Bool.noConfusion this
          simp [this]
        · rw [if_neg hyi]

theorem closed_update_pres {g : Graph} {k : String} {f : Vertex → Vertex}
    (hitem : ∀ vx, (f vx).item = vx.item)
    (hnbrs : ∀ vx, (f vx).neighbours = vx.neighbours)
    (hc : g.Closed) : (g.update k f).Closed := by
  intro vx2 hvx2 w hw
  obtain ⟨vx, hvx, rfl⟩ := List.mem_map.mp hvx2
  rw [Graph.update_isSome _ _ _ _ hitem]
  by_cases h : vx.item = k
  · rw [if_pos h, hnbrs] at hw
    exact hc vx hvx w hw
  · rw [if_neg h] at hw
    exact hc vx hvx w hw

theorem closed_add_vertex {g : Graph} (hc : g.Closed) (i kd : String) :
    (g.add_vertex i kd).Closed := by
  by_cases hpres : (g.findV i).isSome
  · rw [Graph.add_vertex_of_present hpres]
    exact hc
  · have hn : g.findV i = none := Option.not_isSome_iff_eq_none.mp hpres
    intro vx2 hvx2 w hw
    rw [Graph.add_vertex, if_neg hpres] at hvx2
    rw [Graph.add_vertex_isSome]
    rcases List.mem_append.mp hvx2 with h | h
    · exact Or.inl (hc vx2 h w hw)
    · simp only [List.mem_singleton] at h
      subst h
      simp at hw

theorem closed_add_edge {g : Graph} (hc : g.Closed) {a b : String}
    (ha : (g.findV a).isSome) (hb : (g.findV b).isSome) :
    ((g.update a (Graph.addNb b)).update b (Graph.addNb a)).Closed := by
  intro vx2 hvx2 w hw
  rw [add_edge_presence]
  obtain ⟨vx1, hvx1, rfl⟩ := List.mem_map.mp hvx2
  obtain ⟨vx, hvx, rfl⟩ := List.mem_map.mp hvx1
  have hmem : w ∈ vx.neighbours ∨ w = a ∨ w = b := by
    by_cases h1 : vx.item = a
    · rw [if_pos h1] at hw
      simp only [addNb_item] at hw
      by_cases h2 : vx.item = b
      · rw [if_pos h2] at hw
        rcases (addNb_neighbours_mem a w _).mp hw with h | rfl
        · rcases (addNb_neighbours_mem b w _).mp h with h | rfl
          · exact Or.inl h
          · exact Or.inr (Or.inr rfl)
        · exact Or.inr (Or.inl rfl)
      · rw [if_neg h2] at hw
        rcases (addNb_neighbours_mem b w _).mp hw with h | rfl
        · exact Or.inl h
        · exact Or.inr (Or.inr rfl)
    · rw [if_neg h1] at hw
      by_cases h2 : vx.item = b
      · rw [if_pos h2] at hw
        rcases (addNb_neighbours_mem a w _).mp hw with h | rfl
        · exact Or.inl h
        · exact Or.inr (Or.inl rfl)
      · rw [if_neg h2] at hw
        exact Or.inl hw
  rcases hmem with h | rfl | rfl
  · exact hc vx hvx w h
  · exact ha
  · exact hb

/- Preservation of the representation invariant (no self-loops, mutual edges)
by every documented mutation. -/

theorem ifAddNb_mem (a b : String) (vx : Vertex) (w : String) :
    w ∈ (if (if vx.item = a then Graph.addNb b vx else vx).item = b then
        Graph.addNb a (if vx.item = a then Graph.addNb b vx else vx)
      else (if vx.item = a then Graph.addNb b vx else vx)).neighbours ↔
      (w ∈ vx.neighbours ∨ (vx.item = a ∧ w = b) ∨ (vx.item = b ∧ w = a)) := by
  by_cases h1 : vx.item = a
  · rw [if_pos h1]
    simp only [addNb_item]
    by_cases h2 : vx.item = b
    · rw [if_pos h2, addNb_neighbours_mem, addNb_neighbours_mem]
      constructor
      · rintro ((h | rfl) | rfl)
        · exact Or.inl h
        · exact Or.inr (Or.inl ⟨h1, rfl⟩)
        · exact Or.inr (Or.inr ⟨h2, rfl⟩)
      · rintro (h | ⟨_, rfl⟩ | ⟨_, rfl⟩)
        · exact Or.inl (Or.inl h)
        · exact Or.inl (Or.inr rfl)
        · exact Or.inr rfl
    · rw [if_neg h2, addNb_neighbours_mem]
      constructor
      · rintro (h | rfl)
        · exact Or.inl h
        · exact Or.inr (Or.inl ⟨h1, rfl⟩)
      · rintro (h | ⟨_, rfl⟩ | ⟨hb2, rfl⟩)
        · exact Or.inl h
        · exact Or.inr rfl
        · exact absurd hb2 h2
  · rw [if_neg h1]
    by_cases h2 : vx.item = b
    · rw [if_pos h2, addNb_neighbours_mem]
      constructor
      · rintro (h | rfl)
        · exact Or.inl h
        · exact Or.inr (Or.inr ⟨h2, rfl⟩)
      · rintro (h | ⟨ha2, rfl⟩ | ⟨_, rfl⟩)
        · exact Or.inl h
        · exact absurd ha2 h1
        · exact Or.inr rfl
    · rw [if_neg h2]
      constructor
      · exact fun h => Or.inl h
      · rintro (h | ⟨ha2, rfl⟩ | ⟨hb2, rfl⟩)
        · exact h
        · exact absurd ha2 h1
        · exact absurd hb2 h2

theorem ifAddNb_item (a b : String) (vx : Vertex) :
    (if (if vx.item = a then Graph.addNb b vx else vx).item = b then
        Graph.addNb a (if vx.item = a then Graph.addNb b vx else vx)
      else (if vx.item = a then Graph.addNb b vx else vx)).item = vx.item := by
  by_cases h1 : vx.item = a
  · rw [if_pos h1]
    simp only [addNb_item]
    by_cases h2 : vx.item = b
    · rw [if_pos h2, addNb_item, addNb_item]
    · rw [if_neg h2, addNb_item]
  · rw [if_neg h1]
    by_cases h2 : vx.item = b
    · rw [if_pos h2, addNb_item]
    · rw [if_neg h2]

theorem edgeInv_update_pres {g : Graph} {k : String} {f : Vertex → Vertex}
    (hitem : ∀ vx, (f vx).item = vx.item)
    (hnbrs : ∀ vx, (f vx).neighbours = vx.neighbours)
    (h : EdgeInv g) : EdgeInv (g.update k f) := by
  intro vx2 hvx2
  obtain ⟨vx, hvx, rfl⟩ := List.mem_map.mp hvx2
  obtain ⟨hself, hmut⟩ := h vx hvx
  have hit : (if vx.item = k then f vx else vx).item = vx.item := by
    by_cases h1 : vx.item = k <;> simp [h1, hitem]
  have hnb : (if vx.item = k then f vx else vx).neighbours = vx.neighbours := by
    by_cases h1 : vx.item = k <;> simp [h1, hnbrs]
  rw [hit, hnb]
  refine ⟨hself, ?_⟩
  intro u hu
  obtain ⟨ux, hux, hmem⟩ := hmut u hu
  refine ⟨(if ux.item = k then f ux else ux), ?_, ?_⟩
  · show (⟨g.vertices.map _⟩ : Graph).findV u = _
    unfold Graph.findV
    rw [find?_item_map_pres _ _ _
      (fun vx => by by_cases h1 : vx.item = k <;> simp [h1, hitem])]
    have hux' : g.vertices.find? (fun vx => vx.item == u) = some ux := hux
    rw [hux']
    rfl
  · have : (if ux.item = k then f ux else ux).neighbours = ux.neighbours := by
      by_cases h1 : ux.item = k <;> simp [h1, hnbrs]
    rw [this]
    exact hmem

theorem edgeInv_add_vertex {g : Graph} (h : EdgeInv g) (i kd : String) :
    EdgeInv (g.add_vertex i kd) := by
  by_cases hpres : (g.findV i).isSome
  · rw [Graph.add_vertex_of_present hpres]
    exact h
  · have hn : g.findV i = none := Option.not_isSome_iff_eq_none.mp hpres
    intro vx2 hvx2
    have hvx2' : vx2 ∈ g.vertices ++ [⟨i, kd, [], [], 0, (0, 0, 0)⟩] := by
      rw [Graph.add_vertex, if_neg hpres] at hvx2
      exact hvx2
    rcases List.mem_append.mp hvx2' with hold | hnew
    · obtain ⟨hself, hmut⟩ := h vx2 hold
      refine ⟨hself, ?_⟩
      intro u hu
      obtain ⟨ux, hux, hmem⟩ := hmut u hu
      refine ⟨ux, ?_, hmem⟩
      rw [Graph.findV_add_vertex_new hn]
      by_cases hui : u = i
      · subst hui
        rw [hux] at hn
        exact Option.noConfusion hn
      · rw [if_neg hui]
        exact hux
    · simp only [List.mem_singleton] at hnew
      subst hnew
      exact ⟨by simp, by simp⟩

theorem edgeInv_add_edge {g : Graph} {a b : String} (hab : a ≠ b)
    (ha : (g.findV a).isSome) (hb : (g.findV b).isSome) (h : EdgeInv g) :
    EdgeInv ((g.update a (Graph.addNb b)).update b (Graph.addNb a)) := by
  intro vx2 hvx2
  obtain ⟨vx1, hvx1, rfl⟩ := List.mem_map.mp hvx2
  obtain ⟨vx, hvx, rfl⟩ := List.mem_map.mp hvx1
  obtain ⟨hself, hmut⟩ := h vx hvx
  constructor
  · rw [ifAddNb_item]
    intro hmem
    rcases (ifAddNb_mem a b vx vx.item).mp hmem with hm | ⟨h1, h2⟩ | ⟨h1, h2⟩
    · exact hself hm
    · exact hab (h1 ▸ h2)
    · exact hab (h2 ▸ h1)
  · intro u hu
    rw [ifAddNb_item]
    rcases (ifAddNb_mem a b vx u).mp hu with hm | ⟨h1, rfl⟩ | ⟨h1, rfl⟩
    · obtain ⟨ux, hux, hmem⟩ := hmut u hm
      by_cases hua : u = a
      · subst hua
        refine ⟨Graph.addNb b ux, ?_, ?_⟩
        · rw [add_edge_findV_a hab, hux]
          rfl
        · rw [addNb_neighbours_mem]
          exact Or.inl hmem
      · by_cases hub : u = b
        · subst hub
          refine ⟨Graph.addNb a ux, ?_, ?_⟩
          · rw [add_edge_findV_b hab, hux]
            rfl
          · rw [addNb_neighbours_mem]
            exact Or.inl hmem
        · refine ⟨ux, ?_, hmem⟩
          rw [add_edge_findV_other hua hub]
          exact hux
    · obtain ⟨vb, hvb⟩ := Option.isSome_iff_exists.mp hb
      refine ⟨Graph.addNb a vb, ?_, ?_⟩
      · rw [add_edge_findV_b hab, hvb]
        rfl
      · rw [addNb_neighbours_mem, h1]
        exact Or.inr rfl
    · obtain ⟨va, hva⟩ := Option.isSome_iff_exists.mp ha
      refine ⟨Graph.addNb b va, ?_, ?_⟩
      · rw [add_edge_findV_a hab, hva]
        rfl
      · rw [addNb_neighbours_mem, h1]
        exact Or.inr rfl

theorem reachableGraph_edgeInv {g : Graph} (h : ReachableGraph g) : EdgeInv g := by
  induction h with
  | empty =>
    intro vx hvx
    simp [Graph.empty] at hvx
  | vertexStep i kd _ ih => exact edgeInv_add_vertex ih i kd
  | @edgeStep g0 g2 a b hg hab hok ih =>
    unfold Graph.add_edge at hok
    by_cases hpres : (g0.findV a).isSome ∧ (g0.findV b).isSome
    · rw [if_pos hpres] at hok
      injection hok with hok
      rw [← hok]
      exact edgeInv_add_edge hab hpres.1 hpres.2 ih
    · rw [if_neg hpres] at hok
      exact Except.noConfusion hok
  | @appearanceStep g0 g2 actor movie hg hok ih =>
    unfold Graph.add_appearances at hok
    by_cases hpres : (g0.findV actor).isSome
    · rw [if_pos hpres] at hok
      injection hok with hok
      rw [← hok]
      exact edgeInv_update_pres
        (fun vx => by by_cases h1 : movie ∈ vx.appearances <;> simp [h1])
        (fun vx => by by_cases h1 : movie ∈ vx.appearances <;> simp [h1]) ih
    · rw [if_neg hpres] at hok
      exact Except.noConfusion hok
  | @simScoreStep g0 g2 movie scores hg hok ih =>
    unfold Graph.add_sim_score at hok
    cases hsc : alookup movie scores with
    | none =>
      rw [hsc] at hok
      exact Except.noConfusion hok
    | some sc =>
      rw [hsc] at hok
      have hok1 : (match g0.findV movie with
          | none => (.error .keyError : Except PyErr Graph)
          | some _ => .ok (g0.update movie (fun vx => { vx with sim_score := sc }))) =
          .ok g2 := hok
      cases hf : g0.findV movie with
      | none =>
        rw [hf] at hok1
        exact Except.noConfusion hok1
      | some vm =>
        rw [hf] at hok1
        have hok2 : Except.ok (g0.update movie (fun vx => { vx with sim_score := sc })) =
            (.ok g2 : Except PyErr Graph) := hok1
        injection hok2 with hok2
        rw [← hok2]
        exact edgeInv_update_pres (fun vx => rfl) (fun vx => rfl) ih

/- Characterization of actor-graph construction. -/

theorem helper_spec (actor : String) :
    ∀ (castpart : List String) (g : Graph),
      (g.findV actor).isSome → g.Closed →
      ∃ g2, _create_actor_graph_helper castpart g actor = .ok g2 ∧
        g2.Closed ∧
        (∀ x, ((g2.findV x).isSome ↔ (g.findV x).isSome)) ∧
        (∀ x y, g2.adjacent x y = true ↔ (g.adjacent x y = true ∨
          (x = actor ∧ y ∈ castpart ∧ (g.findV y).isSome ∧ y ≠ actor) ∨
          (y = actor ∧ x ∈ castpart ∧ (g.findV x).isSome ∧ x ≠ actor))) := by
  intro castpart
  induction castpart with
  | nil =>
    intro g ha hc
    refine ⟨g, rfl, hc, fun x => Iff.rfl, ?_⟩
    intro x y
    simp
  | cons a2 rest ih =>
    intro g ha hc
    by_cases hcond : g.item_in_graph a2 = true ∧ actor ≠ a2
    · have ha2 : (g.findV a2).isSome := hcond.1
      have hne : actor ≠ a2 := hcond.2
      have hedge := add_edge_eq ha ha2
      have hmidpres := add_edge_presence (g := g) actor a2
      have hmidadj := add_edge_adjacent (g := g) hne ha ha2
      have hmidclosed := closed_add_edge hc ha ha2
      obtain ⟨g2, hrec, hc2, hpres2, hadj2⟩ :=
        ih ((g.update actor (Graph.addNb a2)).update a2 (Graph.addNb actor))
          (by rw [hmidpres]; exact ha) hmidclosed
      refine ⟨g2, ?_, hc2, ?_, ?_⟩
      · rw [_create_actor_graph_helper, if_pos hcond, hedge]
        exact hrec
      · intro x
        rw [hpres2 x, hmidpres]
      · intro x y
        rw [hadj2 x y, hmidadj x y]
        constructor
        · rintro ((h | ⟨rfl, rfl⟩ | ⟨rfl, rfl⟩) | ⟨rfl, hyr, hyp, hya⟩ | ⟨rfl, hxr, hxp, hxa⟩)
          · exact Or.inl h
          · exact Or.inr (Or.inl ⟨rfl, List.mem_cons_self _ _, ha2, fun hh => hne hh.symm⟩)
          · exact Or.inr (Or.inr ⟨rfl, List.mem_cons_self _ _, ha2, fun hh => hne hh.symm⟩)
          · refine Or.inr (Or.inl ⟨rfl, List.mem_cons_of_mem _ hyr, ?_, hya⟩)
            rw [← hmidpres y]
            exact hyp
          · refine Or.inr (Or.inr ⟨rfl, List.mem_cons_of_mem _ hxr, ?_, hxa⟩)
            rw [← hmidpres x]
            exact hxp
        · rintro (h | ⟨rfl, hyc, hyp, hya⟩ | ⟨rfl, hxc, hxp, hxa⟩)
          · exact Or.inl (Or.inl h)
          · rcases List.mem_cons.mp hyc with rfl | hyr
            · exact Or.inl (Or.inr (Or.inl ⟨rfl, rfl⟩))
            · refine Or.inr (Or.inl ⟨rfl, hyr, ?_, hya⟩)
              rw [hmidpres y]
              exact hyp
          · rcases List.mem_cons.mp hxc with rfl | hxr
            · exact Or.inl (Or.inr (Or.inr ⟨rfl, rfl⟩))
            · refine Or.inr (Or.inr ⟨rfl, hxr, ?_, hxa⟩)
              rw [hmidpres x]
              exact hxp
    · obtain ⟨g2, hrec, hc2, hpres2, hadj2⟩ := ih g ha hc
      refine ⟨g2, ?_, hc2, hpres2, ?_⟩
      · rw [_create_actor_graph_helper, if_neg hcond]
        exact hrec
      · intro x y
        rw [hadj2 x y]
        have hnc : ∀ z : String, z = a2 → ¬ ((g.findV z).isSome ∧ z ≠ actor) := by
          rintro z rfl ⟨hp, hzne⟩
          exact hcond ⟨hp, fun hh => hzne hh.symm⟩
        constructor
        · rintro (h | ⟨rfl, hyr, hyp, hya⟩ | ⟨rfl, hxr, hxp, hxa⟩)
          · exact Or.inl h
          · exact Or.inr (Or.inl ⟨rfl, List.mem_cons_of_mem _ hyr, hyp, hya⟩)
          · exact Or.inr (Or.inr ⟨rfl, List.mem_cons_of_mem _ hxr, hxp, hxa⟩)
        · rintro (h | ⟨rfl, hyc, hyp, hya⟩ | ⟨rfl, hxc, hxp, hxa⟩)
          · exact Or.inl h
          · rcases List.mem_cons.mp hyc with rfl | hyr
            · exact absurd ⟨hyp, hya⟩ (hnc y rfl)
            · exact Or.inr (Or.inl ⟨rfl, hyr, hyp, hya⟩)
          · rcases List.mem_cons.mp hxc with rfl | hxr
            · exact absurd ⟨hxp, hxa⟩ (hnc x rfl)
            · exact Or.inr (Or.inr ⟨rfl, hxr, hxp, hxa⟩)

theorem addCastMember_spec (movie : String) (movie_cast : List String) (g : Graph)
    (actor : String) (hc : g.Closed) :
    ∃ g2, addCastMember movie movie_cast g actor = .ok g2 ∧ g2.Closed ∧
      (∀ x, ((g2.findV x).isSome ↔ ((g.findV x).isSome ∨ x = actor))) ∧
      (∀ x y, g2.adjacent x y = true ↔ (g.adjacent x y = true ∨
        (x = actor ∧ y ∈ movie_cast ∧ (g.findV y).isSome ∧ y ≠ actor) ∨
        (y = actor ∧ x ∈ movie_cast ∧ (g.findV x).isSome ∧ x ≠ actor))) := by
  have hg1c : (g.add_vertex actor "actor").Closed := closed_add_vertex hc actor "actor"
  have hg1pres : ∀ x, (((g.add_vertex actor "actor").findV x).isSome ↔
      ((g.findV x).isSome ∨ x = actor)) := fun x => Graph.add_vertex_isSome g actor "actor" x
  have hg1adj : ∀ x y, (g.add_vertex actor "actor").adjacent x y = g.adjacent x y :=
    fun x y => adjacent_add_vertex hc actor "actor" x y
  have hactor1 : ((g.add_vertex actor "actor").findV actor).isSome :=
    (hg1pres actor).mpr (Or.inr rfl)
  have hfitem : ∀ vx : Vertex, ((fun vx => if movie ∈ vx.appearances then vx
      else { vx with appearances := vx.appearances ++ [movie] }) vx).item = vx.item := by
    intro vx
    by_cases h1 : movie ∈ vx.appearances <;> simp [h1]
  have hfnbrs : ∀ vx : Vertex, ((fun vx => if movie ∈ vx.appearances then vx
      else { vx with appearances := vx.appearances ++ [movie] }) vx).neighbours =
      vx.neighbours := by
    intro vx
    by_cases h1 : movie ∈ vx.appearances <;> simp [h1]
  have happ : (g.add_vertex actor "actor").add_appearances actor movie =
      .ok ((g.add_vertex actor "actor").update actor (fun vx =>
        if movie ∈ vx.appearances then vx
        else { vx with appearances := vx.appearances ++ [movie] })) := by
    unfold Graph.add_appearances
    rw [if_pos hactor1]
  have hgappc : ((g.add_vertex actor "actor").update actor (fun vx =>
      if movie ∈ vx.appearances then vx
      else { vx with appearances := vx.appearances ++ [movie] })).Closed :=
    closed_update_pres hfitem hfnbrs hg1c
  have hgapppres : ∀ x, ((((g.add_vertex actor "actor").update actor (fun vx =>
      if movie ∈ vx.appearances then vx
      else { vx with appearances := vx.appearances ++ [movie] })).findV x).isSome ↔
      ((g.findV x).isSome ∨ x = actor)) := by
    intro x
    rw [Graph.update_isSome _ _ _ _ hfitem]
    exact hg1pres x
  have hgappadj : ∀ x y, (((g.add_vertex actor "actor").update actor (fun vx =>
      if movie ∈ vx.appearances then vx
      else { vx with appearances := vx.appearances ++ [movie] })).adjacent x y) =
      g.adjacent x y := by
    intro x y
    rw [adjacent_update_pres hfitem hfnbrs, hg1adj]
  obtain ⟨g2, hrun, hc2, hpres2, hadj2⟩ := helper_spec actor movie_cast _
    ((hgapppres actor).mpr (Or.inr rfl)) hgappc
  refine ⟨g2, ?_, hc2, ?_, ?_⟩
  · unfold addCastMember
    rw [happ]
    exact hrun
  · intro x
    rw [hpres2 x]
    exact hgapppres x
  · intro x y
    rw [hadj2 x y, hgappadj x y]
    constructor
    · rintro (h | ⟨rfl, hyc, hyp, hya⟩ | ⟨rfl, hxc, hxp, hxa⟩)
      · exact Or.inl h
      · refine Or.inr (Or.inl ⟨rfl, hyc, ?_, hya⟩)
        rcases (hgapppres y).mp hyp with h | rfl
        · exact h
        · exact absurd rfl hya
      · refine Or.inr (Or.inr ⟨rfl, hxc, ?_, hxa⟩)
        rcases (hgapppres x).mp hxp with h | rfl
        · exact h
        · exact absurd rfl hxa
    · rintro (h | ⟨rfl, hyc, hyp, hya⟩ | ⟨rfl, hxc, hxp, hxa⟩)
      · exact Or.inl h
      · exact Or.inr (Or.inl ⟨rfl, hyc, (hgapppres y).mpr (Or.inl hyp), hya⟩)
      · exact Or.inr (Or.inr ⟨rfl, hxc, (hgapppres x).mpr (Or.inl hxp), hxa⟩)

theorem processCast_spec (movie : String) (movie_cast : List String) :
    ∀ (todo : List String) (g : Graph), g.Closed → (∀ x ∈ todo, x ∈ movie_cast) →
      ∃ g2, processCast movie movie_cast todo g = .ok g2 ∧ g2.Closed ∧
        (∀ x, ((g2.findV x).isSome ↔ ((g.findV x).isSome ∨ x ∈ todo))) ∧
        (∀ x y, g2.adjacent x y = true ↔ (g.adjacent x y = true ∨
          (x ≠ y ∧ ((x ∈ todo ∧ y ∈ movie_cast ∧ ((g.findV y).isSome ∨ y ∈ todo)) ∨
                    (y ∈ todo ∧ x ∈ movie_cast ∧ ((g.findV x).isSome ∨ x ∈ todo)))))) := by
  intro todo
  induction todo with
  | nil =>
    intro g hc _
    refine ⟨g, rfl, hc, fun x => by simp, ?_⟩
    intro x y
    simp
  | cons a rest ih =>
    intro g hc hsub
    obtain ⟨g1, hstep, hc1, hpres1, hadj1⟩ := addCastMember_spec movie movie_cast g a hc
    obtain ⟨g2, hrun, hc2, hpres2, hadj2⟩ :=
      ih g1 hc1 (fun x hx => hsub x (List.mem_cons_of_mem _ hx))
    refine ⟨g2, ?_, hc2, ?_, ?_⟩
    · unfold processCast
      rw [hstep]
      exact hrun
    · intro x
      rw [hpres2 x, hpres1 x]
      simp only [List.mem_cons]
      tauto
    · intro x y
      rw [hadj2 x y, hadj1 x y]
      constructor
      · rintro ((h | ⟨rfl, hyc, hyp, hya⟩ | ⟨rfl, hxc, hxp, hxa⟩) |
          ⟨hxy, ⟨hxr, hyc, hy⟩ | ⟨hyr, hxc, hx⟩⟩)
        · exact Or.inl h
        · exact Or.inr ⟨fun h => hya h.symm,
            Or.inl ⟨List.mem_cons_self _ _, hyc, Or.inl hyp⟩⟩
        · exact Or.inr ⟨fun h => hxa (h ▸ rfl),
            Or.inr ⟨List.mem_cons_self _ _, hxc, Or.inl hxp⟩⟩
        · refine Or.inr ⟨hxy, Or.inl ⟨List.mem_cons_of_mem _ hxr, hyc, ?_⟩⟩
          rcases hy with hp | hyr
          · rcases (hpres1 y).mp hp with h | rfl
            · exact Or.inl h
            · exact Or.inr (List.mem_cons_self _ _)
          · exact Or.inr (List.mem_cons_of_mem _ hyr)
        · refine Or.inr ⟨hxy, Or.inr ⟨List.mem_cons_of_mem _ hyr, hxc, ?_⟩⟩
          rcases hx with hp | hxr
          · rcases (hpres1 x).mp hp with h | rfl
            · exact Or.inl h
            · exact Or.inr (List.mem_cons_self _ _)
          · exact Or.inr (List.mem_cons_of_mem _ hxr)
      · rintro (h | ⟨hxy, ⟨hxc', hyc, hy⟩ | ⟨hyc', hxc, hx⟩⟩)
        · exact Or.inl (Or.inl h)
        · rcases List.mem_cons.mp hxc' with rfl | hxr
          · rcases hy with hp | hy'
            · exact Or.inl (Or.inr (Or.inl ⟨rfl, hyc, hp, fun h => hxy h.symm⟩))
            · rcases List.mem_cons.mp hy' with rfl | hyr
              · exact absurd rfl hxy
              · refine Or.inr ⟨hxy, Or.inr ⟨hyr, hsub x (List.mem_cons_self _ _), ?_⟩⟩
                exact Or.inl ((hpres1 x).mpr (Or.inr rfl))
          · refine Or.inr ⟨hxy, Or.inl ⟨hxr, hyc, ?_⟩⟩
            rcases hy with hp | hy'
            · exact Or.inl ((hpres1 y).mpr (Or.inl hp))
            · rcases List.mem_cons.mp hy' with rfl | hyr
              · exact Or.inl ((hpres1 y).mpr (Or.inr rfl))
              · exact Or.inr hyr
        · rcases List.mem_cons.mp hyc' with rfl | hyr
          · rcases hx with hp | hx'
            · exact Or.inl (Or.inr (Or.inr ⟨rfl, hxc, hp, fun h => hxy (h ▸ rfl)⟩))
            · rcases List.mem_cons.mp hx' with rfl | hxr
              · exact absurd rfl hxy
              · refine Or.inr ⟨hxy, Or.inl ⟨hxr, hsub y (List.mem_cons_self _ _), ?_⟩⟩
                exact Or.inl ((hpres1 y).mpr (Or.inr rfl))
          · refine Or.inr ⟨hxy, Or.inr ⟨hyr, hxc, ?_⟩⟩
            rcases hx with hp | hx'
            · exact Or.inl ((hpres1 x).mpr (Or.inl hp))
            · rcases List.mem_cons.mp hx' with rfl | hxr
              · exact Or.inl ((hpres1 x).mpr (Or.inr rfl))
              · exact Or.inr hxr

theorem create_actor_graph_loop_spec :
    ∀ (ms : List (String × MovieRec)) (g : Graph), g.Closed →
      ∃ g2, create_actor_graph_loop ms g = .ok g2 ∧ g2.Closed ∧
        (∀ x, ((g2.findV x).isSome ↔ ((g.findV x).isSome ∨ ∃ e ∈ ms, x ∈ e.2.1))) ∧
        (∀ x y, g2.adjacent x y = true ↔ (g.adjacent x y = true ∨
          (x ≠ y ∧ ∃ e ∈ ms, x ∈ e.2.1 ∧ y ∈ e.2.1))) := by
  intro ms
  induction ms with
  | nil =>
    intro g hc
    refine ⟨g, rfl, hc, fun x => by simp, ?_⟩
    intro x y
    simp
  | cons m rest ih =>
    obtain ⟨movie, r⟩ := m
    intro g hc
    obtain ⟨g1, hstep, hc1, hpres1, hadj1⟩ :=
      processCast_spec movie r.1 r.1 g hc (fun x hx => hx)
    obtain ⟨g2, hrun, hc2, hpres2, hadj2⟩ := ih g1 hc1
    refine ⟨g2, ?_, hc2, ?_, ?_⟩
    · unfold create_actor_graph_loop
      rw [hstep]
      exact hrun
    · intro x
      rw [hpres2 x, hpres1 x]
      simp only [List.mem_cons]
      constructor
      · rintro ((h | h) | ⟨e, he, hx⟩)
        · exact Or.inl h
        · exact Or.inr ⟨(movie, r), Or.inl rfl, h⟩
        · exact Or.inr ⟨e, Or.inr he, hx⟩
      · rintro (h | ⟨e, he | he, hx⟩)
        · exact Or.inl (Or.inl h)
        · subst he
          exact Or.inl (Or.inr hx)
        · exact Or.inr ⟨e, he, hx⟩
    · intro x y
      rw [hadj2 x y, hadj1 x y]
      constructor
      · rintro ((h | ⟨hxy, ⟨hxc, hyc, _⟩ | ⟨hyc, hxc, _⟩⟩) | ⟨hxy, e, he, hx, hy⟩)
        · exact Or.inl h
        · exact Or.inr ⟨hxy, (movie, r), List.mem_cons_self _ _, hxc, hyc⟩
        · exact Or.inr ⟨hxy, (movie, r), List.mem_cons_self _ _, hxc, hyc⟩
        · exact Or.inr ⟨hxy, e, List.mem_cons_of_mem _ he, hx, hy⟩
      · rintro (h | ⟨hxy, e, he, hx, hy⟩)
        · exact Or.inl (Or.inl h)
        · rcases List.mem_cons.mp he with rfl | he'
          · exact Or.inl (Or.inr ⟨hxy, Or.inl ⟨hx, hy, Or.inr hy⟩⟩)
          · exact Or.inr ⟨hxy, e, he', hx, hy⟩

theorem create_actor_graph_spec (movies : List (String × MovieRec)) :
    ∃ g, create_actor_graph movies = .ok g ∧ g.Closed ∧
      (∀ x, ((g.findV x).isSome ↔ ∃ e ∈ movies, x ∈ e.2.1)) ∧
      (∀ x y, g.adjacent x y = true ↔ (x ≠ y ∧ ∃ e ∈ movies, x ∈ e.2.1 ∧ y ∈ e.2.1)) := by
  have hec : Graph.empty.Closed := by
    intro vx hvx
    simp [Graph.empty] at hvx
  obtain ⟨g, hrun, hc, hpres, hadj⟩ := create_actor_graph_loop_spec movies Graph.empty hec
  have hempty_find : ∀ x, Graph.empty.findV x = none := fun x => rfl
  have hempty_adj : ∀ x y, Graph.empty.adjacent x y = false := fun x y => rfl
  refine ⟨g, hrun, hc, ?_, ?_⟩
  · intro x
    rw [hpres x, hempty_find x]
    simp
  · intro x y
    rw [hadj x y, hempty_adj x y]
    simp

/- Characterization of recommendation-graph construction (star topology). -/

theorem addNb_sim (x : String) (vx : Vertex) :
    (Graph.addNb x vx).sim_score = vx.sim_score := by
  unfold Graph.addNb
  by_cases h : x ∈ vx.neighbours <;> simp [h]

theorem addRecMovies_spec (main : String) (scores : List (String × Rat)) :
    ∀ (todo : List String) (g : Graph) (done : List String),
      main ∉ todo →
      (∀ c ∈ todo, (alookup c scores).isSome) →
      (∃ mv, g.findV main = some mv ∧ mv.sim_score = 1 ∧
        (∀ x, x ∈ mv.neighbours ↔ x ∈ done)) →
      (∀ c ∈ done, c ≠ main → ∃ cv, g.findV c = some cv ∧
        some cv.sim_score = alookup c scores ∧ (∀ x, x ∈ cv.neighbours ↔ x = main)) →
      (∀ x, ((g.findV x).isSome ↔ (x = main ∨ x ∈ done))) →
      ∃ g2, addRecMovies main scores todo g = .ok g2 ∧
        (∃ mv, g2.findV main = some mv ∧ mv.sim_score = 1 ∧
          (∀ x, x ∈ mv.neighbours ↔ x ∈ done ++ todo)) ∧
        (∀ c ∈ done ++ todo, c ≠ main → ∃ cv, g2.findV c = some cv ∧
          some cv.sim_score = alookup c scores ∧ (∀ x, x ∈ cv.neighbours ↔ x = main)) ∧
        (∀ x, ((g2.findV x).isSome ↔ (x = main ∨ x ∈ done ++ todo))) := by
  intro todo
  induction todo with
  | nil =>
    intro g done _ _ hmv hdone hpres
    refine ⟨g, rfl, ?_, ?_, ?_⟩
    · simpa using hmv
    · simpa using hdone
    · simpa using hpres
  | cons c rest ih =>
    intro g done hmainout hcov hmv hdone hpres
    obtain ⟨mv, hmvf, hmvs, hmvn⟩ := hmv
    have hcm : c ≠ main := by
      intro h
      exact hmainout (h ▸ List.mem_cons_self _ _)
    have hmc : ¬ main = c := fun h => hcm h.symm
    obtain ⟨sc, hsc⟩ := Option.isSome_iff_exists.mp (hcov c (List.mem_cons_self _ _))
    have hpres_a : ∀ x, (((g.add_vertex c "movie").findV x).isSome ↔
        (x = main ∨ x ∈ done ++ [c])) := by
      intro x
      rw [Graph.add_vertex_isSome, hpres x]
      simp only [List.mem_append, List.mem_singleton]
      tauto
    have hfind_a_other : ∀ x, x ≠ c → (g.add_vertex c "movie").findV x = g.findV x := by
      intro x hx
      by_cases hcp : (g.findV c).isSome
      · rw [Graph.add_vertex_of_present hcp]
      · rw [Graph.findV_add_vertex_new (Option.not_isSome_iff_eq_none.mp hcp), if_neg hx]
    have hcv_a : ∃ cva, (g.add_vertex c "movie").findV c = some cva ∧
        (∀ x ∈ cva.neighbours, x = main) := by
      by_cases hcp : (g.findV c).isSome
      · rw [Graph.add_vertex_of_present hcp]
        have hcdone : c ∈ done := by
          rcases (hpres c).mp hcp with h | h
          · exact absurd h hcm
          · exact h
        obtain ⟨cv, hcv, _, hcvn⟩ := hdone c hcdone hcm
        exact ⟨cv, hcv, fun x hx => (hcvn x).mp hx⟩
      · rw [Graph.findV_add_vertex_new (Option.not_isSome_iff_eq_none.mp hcp), if_pos rfl]
        exact ⟨_, rfl, by simp⟩
    obtain ⟨cva, hcva, hcvan⟩ := hcv_a
    have hsim : (g.add_vertex c "movie").add_sim_score c scores =
        .ok ((g.add_vertex c "movie").update c (fun vx =>
          { vx with sim_score := sc })) := by
      unfold Graph.add_sim_score
      rw [hsc, hcva]
    have hsitem : ∀ vx : Vertex,
        ((fun vx : Vertex => { vx with sim_score := sc }) vx).item = vx.item :=
      fun vx => rfl
    have hpres_b : ∀ x, ((((g.add_vertex c "movie").update c
        (fun vx => { vx with sim_score := sc })).findV x).isSome ↔
        (x = main ∨ x ∈ done ++ [c])) := by
      intro x
      rw [Graph.update_isSome _ _ _ _ hsitem]
      exact hpres_a x
    have hfind_b_other : ∀ x, x ≠ c → ((g.add_vertex c "movie").update c
        (fun vx => { vx with sim_score := sc })).findV x = g.findV x := by
      intro x hx
      rw [Graph.findV_update_other _ _ _ _ hsitem hx]
      exact hfind_a_other x hx
    have hfind_b_c : ((g.add_vertex c "movie").update c
        (fun vx => { vx with sim_score := sc })).findV c =
        some { cva with sim_score := sc } := by
      rw [Graph.findV_update_self _ _ _ hsitem, hcva]
      rfl
    have hmainpres_b : (((g.add_vertex c "movie").update c
        (fun vx => { vx with sim_score := sc })).findV main).isSome :=
      (hpres_b main).mpr (Or.inl rfl)
    have hcpres_b : (((g.add_vertex c "movie").update c
        (fun vx => { vx with sim_score := sc })).findV c).isSome := by
      rw [hfind_b_c]
      rfl
    have hedge := add_edge_eq hcpres_b hmainpres_b
    have hfind_b_main : ((g.add_vertex c "movie").update c
        (fun vx => { vx with sim_score := sc })).findV main = some mv := by
      rw [hfind_b_other main hmc]
      exact hmvf
    have hgc_main : ((((g.add_vertex c "movie").update c
        (fun vx => { vx with sim_score := sc })).update c (Graph.addNb main)).update main
          (Graph.addNb c)).findV main = some (Graph.addNb c mv) := by
      rw [add_edge_findV_b hcm, hfind_b_main]
      rfl
    have hgc_c : ((((g.add_vertex c "movie").update c
        (fun vx => { vx with sim_score := sc })).update c (Graph.addNb main)).update main
          (Graph.addNb c)).findV c =
        some (Graph.addNb main { cva with sim_score := sc }) := by
      rw [add_edge_findV_a hcm, hfind_b_c]
      rfl
    have hgc_other : ∀ x, x ≠ c → x ≠ main →
        ((((g.add_vertex c "movie").update c
          (fun vx => { vx with sim_score := sc })).update c (Graph.addNb main)).update main
            (Graph.addNb c)).findV x = g.findV x := by
      intro x hx1 hx2
      rw [add_edge_findV_other hx1 hx2]
      exact hfind_b_other x hx1
    have hgc_pres : ∀ x, (((((g.add_vertex c "movie").update c
        (fun vx => { vx with sim_score := sc })).update c (Graph.addNb main)).update main
          (Graph.addNb c)).findV x).isSome ↔ (x = main ∨ x ∈ done ++ [c]) := by
      intro x
      rw [add_edge_presence]
      exact hpres_b x
    have hmvarg : ∀ x, x ∈ (Graph.addNb c mv).neighbours ↔ x ∈ done ++ [c] := by
      intro x
      rw [addNb_neighbours_mem, hmvn x]
      simp only [List.mem_append, List.mem_singleton]
    have hcarg : ∀ x, x ∈ (Graph.addNb main { cva with sim_score := sc }).neighbours ↔
        x = main := by
      intro x
      rw [addNb_neighbours_mem]
      constructor
      · rintro (h | rfl)
        · exact hcvan x h
        · rfl
      · rintro rfl
        exact Or.inr rfl
    have hdonearg : ∀ u ∈ done ++ [c], u ≠ main → ∃ cv,
        ((((g.add_vertex c "movie").update c
          (fun vx => { vx with sim_score := sc })).update c (Graph.addNb main)).update main
            (Graph.addNb c)).findV u = some cv ∧
        some cv.sim_score = alookup u scores ∧ (∀ x, x ∈ cv.neighbours ↔ x = main) := by
      intro u hu hum
      rcases List.mem_append.mp hu with hud | huc
      · by_cases huc2 : u = c
        · subst huc2
          refine ⟨Graph.addNb main { cva with sim_score := sc }, hgc_c, ?_, hcarg⟩
          rw [addNb_sim]
          exact hsc.symm
        · obtain ⟨cv, h1, h2, h3⟩ := hdone u hud hum
          refine ⟨cv, ?_, h2, h3⟩
          rw [hgc_other u huc2 hum]
          exact h1
      · simp only [List.mem_singleton] at huc
        subst huc
        refine ⟨Graph.addNb main { cva with sim_score := sc }, hgc_c, ?_, hcarg⟩
        rw [addNb_sim]
        exact hsc.symm
    obtain ⟨g2, hrun, hg2mv, hg2done, hg2pres⟩ := ih _ (done ++ [c])
      (fun h => hmainout (List.mem_cons_of_mem _ h))
      (fun u hu => hcov u (List.mem_cons_of_mem _ hu))
      ⟨Graph.addNb c mv, hgc_main, by rw [addNb_sim]; exact hmvs, hmvarg⟩
      hdonearg hgc_pres
    refine ⟨g2, ?_, ?_, ?_, ?_⟩
    · unfold addRecMovies
      rw [hsim]
      show (match ((g.add_vertex c "movie").update c (fun vx =>
          { vx with sim_score := sc })).add_edge c main with
        | Except.error e => Except.error e
        | Except.ok g3 => addRecMovies main scores rest g3) = Except.ok g2
      rw [hedge]
      exact hrun
    · obtain ⟨mv2, h1, h2, h3⟩ := hg2mv
      refine ⟨mv2, h1, h2, ?_⟩
      intro x
      rw [h3 x]
      simp only [List.mem_append, List.mem_singleton, List.mem_cons]
      tauto
    · intro u hu hum
      apply hg2done u ?_ hum
      simp only [List.mem_append, List.mem_singleton, List.mem_cons] at hu ⊢
      tauto
    · intro x
      rw [hg2pres x]
      simp only [List.mem_append, List.mem_singleton, List.mem_cons]
      tauto

theorem create_recommended_movie_graph_spec (main : String) (recommendations : RecInput)
    (sim_scores : List (String × Rat))
    (hmain : main ∉ recommendations.toList)
    (hcov : ∀ c ∈ recommendations.toList, (alookup c sim_scores).isSome) :
    ∃ g, create_recommended_movie_graph main recommendations sim_scores = .ok g ∧
      (∃ mv, g.findV main = some mv ∧ mv.sim_score = 1 ∧
        (∀ x, x ∈ mv.neighbours ↔ x ∈ recommendations.toList)) ∧
      (∀ c ∈ recommendations.toList, c ≠ main → ∃ cv, g.findV c = some cv ∧
        some cv.sim_score = alookup c sim_scores ∧ (∀ x, x ∈ cv.neighbours ↔ x = main)) ∧
      (∀ x, ((g.findV x).isSome ↔ (x = main ∨ x ∈ recommendations.toList))) := by
  have hen : Graph.empty.findV main = none := rfl
  have hg1 : ∀ x, (Graph.empty.add_vertex main "movie").findV x =
      (if x = main then some ⟨main, "movie", [], [], 0, (0, 0, 0)⟩ else none) := by
    intro x
    rw [Graph.findV_add_vertex_new hen x]
    by_cases hx : x = main
    · rw [if_pos hx, if_pos hx]
    · rw [if_neg hx, if_neg hx]
      rfl
  have hscore1 : alookup main [(main, (1 : Rat))] = some 1 := by
    simp [alookup]
  have hg1main : (Graph.empty.add_vertex main "movie").findV main =
      some ⟨main, "movie", [], [], 0, (0, 0, 0)⟩ := by
    rw [hg1 main, if_pos rfl]
  have hsitem : ∀ vx : Vertex,
      ((fun vx : Vertex => { vx with sim_score := (1 : Rat) }) vx).item = vx.item :=
    fun vx => rfl
  have h0eq : (Graph.empty.add_vertex main "movie").add_sim_score main [(main, 1)] =
      .ok ((Graph.empty.add_vertex main "movie").update main
        (fun vx => { vx with sim_score := (1 : Rat) })) := by
    unfold Graph.add_sim_score
    rw [hscore1, hg1main]
  have hg0main : ((Graph.empty.add_vertex main "movie").update main
      (fun vx => { vx with sim_score := (1 : Rat) })).findV main =
      some ⟨main, "movie", [], [], 1, (0, 0, 0)⟩ := by
    rw [Graph.findV_update_self _ _ _ hsitem, hg1main]
    rfl
  have hg0pres : ∀ x, ((((Graph.empty.add_vertex main "movie").update main
      (fun vx => { vx with sim_score := (1 : Rat) })).findV x).isSome ↔
      (x = main ∨ x ∈ ([] : List String))) := by
    intro x
    rw [Graph.update_isSome _ _ _ _ hsitem, hg1 x]
    by_cases hx : x = main
    · rw [if_pos hx]
      simp [hx]
    · rw [if_neg hx]
      simp [hx]
  obtain ⟨g2, hrun, hmv2, hdone2, hpres2⟩ :=
    addRecMovies_spec main sim_scores recommendations.toList _ [] hmain hcov
      ⟨⟨main, "movie", [], [], 1, (0, 0, 0)⟩, hg0main, rfl, by simp⟩
      (by simp) hg0pres
  refine ⟨g2, ?_, by simpa using hmv2, by simpa using hdone2, by simpa using hpres2⟩
  unfold create_recommended_movie_graph
  rw [h0eq]
  exact hrun

/- KeyError behaviour of the filtering helper. -/

theorem filterCommon_missing (proj : Rat × Rat × Rat → Rat) (lower upper : Rat)
    (movies : List (String × MovieRec)) :
    ∀ (common : List String),
      (∃ m ∈ common, alookup m movies = none) →
      filterCommon proj lower upper movies common = .error .keyError := by
  intro common
  induction common with
  | nil =>
    rintro ⟨m, hm, _⟩
    simp at hm
  | cons m ms ih =>
    rintro ⟨m0, hm0, hm0n⟩
    simp only [filterCommon]
    cases hl : alookup m movies with
    | none => rfl
    | some r =>
      have hm0ms : m0 ∈ ms := by
        rcases List.mem_cons.mp hm0 with rfl | h
        · rw [hl] at hm0n
          exact Option.noConfusion hm0n
        · exact h
      rw [ih ⟨m0, hm0ms, hm0n⟩]

theorem filterCommon_ok (proj : Rat × Rat × Rat → Rat) (lower upper : Rat)
    (movies : List (String × MovieRec)) :
    ∀ (common : List String),
      (∀ m ∈ common, (alookup m movies).isSome) →
      ∃ r, filterCommon proj lower upper movies common = .ok r := by
  intro common
  induction common with
  | nil =>
    intro _
    exact ⟨[], rfl⟩
  | cons m ms ih =>
    intro hall
    obtain ⟨r0, hl⟩ := Option.isSome_iff_exists.mp (hall m (List.mem_cons_self _ _))
    obtain ⟨rest, hrest⟩ := ih (fun u hu => hall u (List.mem_cons_of_mem _ hu))
    refine ⟨if lower ≤ proj r0.2 ∧ proj r0.2 ≤ upper then m :: rest else rest, ?_⟩
    simp only [filterCommon]
    rw [hl, hrest]

/- The claims. -/

/-- Reduction of filter_by_key at key "release date" once both actors resolve. -/
theorem filter_by_key_rd (g : Graph) (a1 a2 : String) (th : Rat × Rat)
    (movies : List (String × MovieRec)) (v1 v2 : Vertex)
    (h1 : g.findV a1 = some v1) (h2 : g.findV a2 = some v2) :
    g.filter_by_key (a1, a2) "release date" th movies =
      match filterCommon (fun info => info.1) th.1 th.2 movies
          (v1.appearances.filter (fun m => decide (m ∈ v2.appearances))) with
      | .error e => .error e
      | .ok cf => if cf ≠ [] then .ok (true, cf) else .ok (false, []) := by
  simp only [Graph.filter_by_key, h1, h2]
  exact if_pos trivial

/-- Reduction of filter_by_key at key "rating" once both actors resolve. -/
theorem filter_by_key_rt (g : Graph) (a1 a2 : String) (th : Rat × Rat)
    (movies : List (String × MovieRec)) (v1 v2 : Vertex)
    (h1 : g.findV a1 = some v1) (h2 : g.findV a2 = some v2) :
    g.filter_by_key (a1, a2) "rating" th movies =
      match filterCommon (fun info => info.2.2) th.1 th.2 movies
          (v1.appearances.filter (fun m => decide (m ∈ v2.appearances))) with
      | .error e => .error e
      | .ok cf => if cf ≠ [] then .ok (true, cf) else .ok (false, []) := by
  simp only [Graph.filter_by_key, h1, h2]
  rw [if_neg (by decide : ¬ ("rating" = "release date"))]
  exact if_pos trivial

/-- Claim C9: for every graph and every movie identity that is a key of the
supplied score mapping but is not a vertex of the graph, add_sim_score fails
with a KeyError rather than performing a no-op. -/
theorem claim_C9 (g : Graph) (movie : String) (sim_scores : List (String × Rat))
    (hsc : (alookup movie sim_scores).isSome) (habs : g.findV movie = none) :
    g.add_sim_score movie sim_scores = .error .keyError := by
  obtain ⟨sc, hsc2⟩ := Option.isSome_iff_exists.mp hsc
  unfold Graph.add_sim_score
  rw [hsc2, habs]

/-- Witness for C9 at a concrete input: the empty graph with a one-entry score
mapping. -/
theorem claim_C9_witness :
    Graph.empty.add_sim_score "m" [("m", 1)] = .error .keyError :=
  claim_C9 Graph.empty "m" [("m", 1)] (by decide) rfl

/-- Claim C10: with both actors present and a valid attribute key, a common
appearance missing from the movie-record mapping makes filter_by_key raise
KeyError; conversely, when every common appearance is a key of the mapping the
call returns normally. -/
theorem claim_C10 (g : Graph) (a1 a2 key : String) (thresholds : Rat × Rat)
    (movies : List (String × MovieRec)) (v1 v2 : Vertex)
    (h1 : g.findV a1 = some v1) (h2 : g.findV a2 = some v2)
    (hkey : key = "release date" ∨ key = "rating") :
    ((∃ m, m ∈ v1.appearances ∧ m ∈ v2.appearances ∧ alookup m movies = none) →
      g.filter_by_key (a1, a2) key thresholds movies = .error .keyError) ∧
    ((∀ m, m ∈ v1.appearances → m ∈ v2.appearances → (alookup m movies).isSome) →
      ∃ res, g.filter_by_key (a1, a2) key thresholds movies = .ok res) := by
  have hmemf : ∀ m, m ∈ v1.appearances.filter (fun m => decide (m ∈ v2.appearances)) ↔
      (m ∈ v1.appearances ∧ m ∈ v2.appearances) := by
    intro m
    rw [List.mem_filter]
    simp
  constructor
  · rintro ⟨m, hma, hmb, hmn⟩
    have hmiss : ∃ m0 ∈ v1.appearances.filter (fun m => decide (m ∈ v2.appearances)),
        alookup m0 movies = none := ⟨m, (hmemf m).mpr ⟨hma, hmb⟩, hmn⟩
    rcases hkey with rfl | rfl
    · rw [filter_by_key_rd g a1 a2 thresholds movies v1 v2 h1 h2,
        filterCommon_missing _ _ _ _ _ hmiss]
    · rw [filter_by_key_rt g a1 a2 thresholds movies v1 v2 h1 h2,
        filterCommon_missing _ _ _ _ _ hmiss]
  · intro hall
    have hall2 : ∀ m ∈ v1.appearances.filter (fun m => decide (m ∈ v2.appearances)),
        (alookup m movies).isSome := by
      intro m hm
      obtain ⟨hma, hmb⟩ := (hmemf m).mp hm
      exact hall m hma hmb
    rcases hkey with rfl | rfl
    · obtain ⟨r, hr⟩ := filterCommon_ok (fun info => info.1) thresholds.1 thresholds.2
        movies _ hall2
      rw [filter_by_key_rd g a1 a2 thresholds movies v1 v2 h1 h2, hr]
      show ∃ res, (if r ≠ [] then (Except.ok (true, r) : Except PyErr (Bool × List String))
          else Except.ok (false, [])) = Except.ok res
      by_cases hne : r ≠ []
      · exact ⟨(true, r), if_pos hne⟩
      · exact ⟨(false, []), if_neg hne⟩
    · obtain ⟨r, hr⟩ := filterCommon_ok (fun info => info.2.2) thresholds.1 thresholds.2
        movies _ hall2
      rw [filter_by_key_rt g a1 a2 thresholds movies v1 v2 h1 h2, hr]
      show ∃ res, (if r ≠ [] then (Except.ok (true, r) : Except PyErr (Bool × List String))
          else Except.ok (false, [])) = Except.ok res
      by_cases hne : r ≠ []
      · exact ⟨(true, r), if_pos hne⟩
      · exact ⟨(false, []), if_neg hne⟩

/-- Witness for C10 at a concrete input: two actors sharing a movie that is
absent from the record mapping, so the filtered lookup raises KeyError. -/
theorem claim_C10_witness :
    Graph.filter_by_key ⟨[⟨"a", "actor", ["b"], ["m"], 0, (0, 0, 0)⟩,
        ⟨"b", "actor", ["a"], ["m"], 0, (0, 0, 0)⟩]⟩ ("a", "b") "rating" (0, 10)
      [("other", ([], (1990, 5, 7)))] = .error .keyError :=
  (claim_C10 ⟨[⟨"a", "actor", ["b"], ["m"], 0, (0, 0, 0)⟩,
      ⟨"b", "actor", ["a"], ["m"], 0, (0, 0, 0)⟩]⟩ "a" "b" "rating" (0, 10)
    [("other", ([], (1990, 5, 7)))] ⟨"a", "actor", ["b"], ["m"], 0, (0, 0, 0)⟩
    ⟨"b", "actor", ["a"], ["m"], 0, (0, 0, 0)⟩ rfl rfl (Or.inr rfl)).1
    ⟨"m", by decide, by decide, by decide⟩

/-- Claim C7: every graph reachable from the empty graph by the documented
mutations has no self-loops and only mutual edges. -/
theorem claim_C7 (g : Graph) (h : ReachableGraph g) : EdgeInv g :=
  reachableGraph_edgeInv h

/-- Witness for C7 at a concrete build: two vertices joined by add_edge. -/
theorem claim_C7_witness :
    EdgeInv ⟨[⟨"a", "actor", ["b"], [], 0, (0, 0, 0)⟩,
      ⟨"b", "actor", ["a"], [], 0, (0, 0, 0)⟩]⟩ := by
  have hedge : Graph.add_edge ((Graph.empty.add_vertex "a" "actor").add_vertex "b" "actor")
      "a" "b" = .ok ⟨[⟨"a", "actor", ["b"], [], 0, (0, 0, 0)⟩,
        ⟨"b", "actor", ["a"], [], 0, (0, 0, 0)⟩]⟩ := rfl
  exact claim_C7 _ (ReachableGraph.edgeStep
    (ReachableGraph.vertexStep "b" "actor"
      (ReachableGraph.vertexStep "a" "actor" ReachableGraph.empty))
    (by decide) hedge)

/-- Claim C2: after create_actor_graph, two distinct actors appearing in some
cast are adjacent exactly when some movie's cast contains both. -/
theorem claim_C2 (movies : List (String × MovieRec)) (a b : String) (hab : a ≠ b)
    (ha : ∃ e ∈ movies, a ∈ e.2.1) (hb : ∃ e ∈ movies, b ∈ e.2.1) :
    ∃ g, create_actor_graph movies = .ok g ∧
      (g.adjacent a b = true ↔ ∃ e ∈ movies, a ∈ e.2.1 ∧ b ∈ e.2.1) := by
  obtain ⟨g, hrun, _, _, hadj⟩ := create_actor_graph_spec movies
  refine ⟨g, hrun, ?_⟩
  rw [hadj a b]
  constructor
  · rintro ⟨_, h⟩
    exact h
  · intro h
    exact ⟨hab, h⟩

/-- Witness for C2 at a concrete input: a single movie with a two-actor cast. -/
theorem claim_C2_witness :
    ∃ g, create_actor_graph [("m", (["a", "b"], (1990, 5, 7)))] = .ok g ∧
      (g.adjacent "a" "b" = true ↔
        ∃ e ∈ [("m", ((["a", "b"] : List String), ((1990 : Rat), (5 : Rat), (7 : Rat))))],
          "a" ∈ e.2.1 ∧ "b" ∈ e.2.1) :=
  claim_C2 [("m", (["a", "b"], (1990, 5, 7)))] "a" "b" (by decide)
    ⟨("m", (["a", "b"], (1990, 5, 7))), by decide, by decide⟩
    ⟨("m", (["a", "b"], (1990, 5, 7))), by decide, by decide⟩

/-- Claim C8: create_recommended_movie_graph builds a star: the focal movie has
similarity score 1, every candidate carries its looked-up score and is adjacent
to the focal movie, and no two distinct candidates are adjacent. -/
theorem claim_C8 (main : String) (recommendations : RecInput)
    (sim_scores : List (String × Rat))
    (hmain : main ∉ recommendations.toList)
    (hcov : ∀ c ∈ recommendations.toList, (alookup c sim_scores).isSome)
    (hmaincov : (alookup main sim_scores).isSome) :
    ∃ g, create_recommended_movie_graph main recommendations sim_scores = .ok g ∧
      (∃ mv, g.findV main = some mv ∧ mv.sim_score = 1) ∧
      (∀ c ∈ recommendations.toList,
        (∃ cv, g.findV c = some cv ∧ some cv.sim_score = alookup c sim_scores) ∧
        g.adjacent c main = true) ∧
      (∀ c1 ∈ recommendations.toList, ∀ c2 ∈ recommendations.toList, c1 ≠ c2 →
        g.adjacent c1 c2 = false) := by
  obtain ⟨g, hrun, ⟨mv, hmv, hmvs, hmvn⟩, hdone, hpres⟩ :=
    create_recommended_movie_graph_spec main recommendations sim_scores hmain hcov
  have hcm : ∀ c ∈ recommendations.toList, c ≠ main := by
    intro c hc h
    exact hmain (h ▸ hc)
  refine ⟨g, hrun, ⟨mv, hmv, hmvs⟩, ?_, ?_⟩
  · intro c hc
    obtain ⟨cv, hcv, hcvs, hcvn⟩ := hdone c hc (hcm c hc)
    refine ⟨⟨cv, hcv, hcvs⟩, ?_⟩
    apply adjacent_true_iff.mpr
    refine ⟨cv, hcv, ?_, (hcvn main).mpr rfl⟩
    rw [hmv]
    rfl
  · intro c1 hc1 c2 hc2 hne
    obtain ⟨cv1, hcv1, _, hcvn1⟩ := hdone c1 hc1 (hcm c1 hc1)
    have : ¬ (g.adjacent c1 c2 = true) := by
      intro hadj
      rcases adjacent_true_iff.mp hadj with ⟨vc, hvc, _, hmem⟩
      rw [hcv1] at hvc
      injection hvc with hvc
      rw [← hvc] at hmem
      have := (hcvn1 c2).mp hmem
      exact hcm c2 hc2 this
    cases hb : g.adjacent c1 c2 with
    | true => exact absurd hb this
    | false => rfl

/-- Witness for C8 at a concrete input: one focal movie and two candidates. -/
theorem claim_C8_witness :
    ∃ g, create_recommended_movie_graph "M" (RecInput.ofList ["x", "y"])
        [("M", 1), ("x", (1 : Rat) / 2), ("y", (1 : Rat) / 4)] = .ok g ∧
      (∃ mv, g.findV "M" = some mv ∧ mv.sim_score = 1) ∧
      (∀ c ∈ (RecInput.ofList ["x", "y"]).toList,
        (∃ cv, g.findV c = some cv ∧
          some cv.sim_score = alookup c [("M", 1), ("x", (1 : Rat) / 2), ("y", (1 : Rat) / 4)]) ∧
        g.adjacent c "M" = true) ∧
      (∀ c1 ∈ (RecInput.ofList ["x", "y"]).toList,
        ∀ c2 ∈ (RecInput.ofList ["x", "y"]).toList, c1 ≠ c2 →
        g.adjacent c1 c2 = false) :=
  claim_C8 "M" (RecInput.ofList ["x", "y"])
    [("M", 1), ("x", (1 : Rat) / 2), ("y", (1 : Rat) / 4)]
    (by decide) (by decide) (by decide)

/-- In a graph whose vertices all have empty neighbour lists, no vertex
reaches a distinct vertex. -/
theorem not_reaches_isolated (g : Graph) (s t : String) (hst : s ≠ t)
    (hiso : ∀ vx ∈ g.vertices, vx.neighbours = []) : ¬ Reaches g s t := by
  rintro ⟨p, hp⟩
  cases hp with
  | base => exact hst rfl
  | @snoc q v0 _ hq hadj =>
    rcases adjacent_true_iff.mp hadj with ⟨vc, hvc, _, hmem⟩
    rw [hiso vc (Graph.findV_eq_some_facts hvc).1] at hmem
    exact absurd hmem (List.not_mem_nil _)

/-- Claim C1 (amended: the start must differ from the target): with both
endpoints present and the target reachable, shortest_path_bfs returns a path
from start to target whose consecutive elements are adjacent, whose length
minus one is the minimum hop count, and that hop count is the value recorded
for the target by shortest_distance_bfs of the start. The original claim
omits start ≠ target; when they coincide the distance mapping has no entry
for the target at all. -/
theorem claim_C1 (g : Graph) (s t : String) (hwf : g.WF)
    (hs : (g.findV s).isSome) (ht : (g.findV t).isSome)
    (hreach : Reaches g s t) (hst : s ≠ t) :
    ∃ p, g.shortest_path_bfs s t = .ok p ∧
      p.head? = some s ∧ p.getLast? = some t ∧
      List.Chain' (fun a b => g.adjacent a b = true) p ∧
      IsShortest g s t (p.length - 1) ∧
      ∃ r, g.shortest_distance_bfs s = .ok r ∧
        alookup t r = some (some (p.length - 1)) := by
  obtain ⟨p, hrun, hcase⟩ := shortest_path_bfs_run g s t hwf hs ht
  rcases hcase with ⟨-, hnr⟩ | ⟨hp, hmin⟩
  · exact absurd hreach hnr
  have hlen := hp.length_pos
  have hshort : IsShortest g s t (p.length - 1) := by
    refine ⟨⟨p, hp, by omega⟩, ?_⟩
    intro q hq
    have := hmin q hq
    omega
  obtain ⟨r, hdrun, hkeys, hre, hun⟩ := shortest_distance_bfs_run g s hwf hs
  obtain ⟨d, hd, hds⟩ := hre t (Ne.symm hst) hreach
  have hdeq : d = p.length - 1 := IsShortest.unique hds hshort
  subst hdeq
  exact ⟨p, hrun, hp.head_eq, hp.getLast_eq, hp.chain, hshort, r, hdrun, hd⟩

/-- Witness for C1 at a concrete input: a two-vertex graph with one edge. -/
theorem claim_C1_witness :
    ∃ p, Graph.shortest_path_bfs ⟨[⟨"a", "actor", ["b"], [], 0, (0, 0, 0)⟩,
        ⟨"b", "actor", ["a"], [], 0, (0, 0, 0)⟩]⟩ "a" "b" = .ok p ∧
      p.head? = some "a" ∧ p.getLast? = some "b" ∧
      List.Chain' (fun a b => Graph.adjacent ⟨[⟨"a", "actor", ["b"], [], 0, (0, 0, 0)⟩,
        ⟨"b", "actor", ["a"], [], 0, (0, 0, 0)⟩]⟩ a b = true) p ∧
      IsShortest ⟨[⟨"a", "actor", ["b"], [], 0, (0, 0, 0)⟩,
        ⟨"b", "actor", ["a"], [], 0, (0, 0, 0)⟩]⟩ "a" "b" (p.length - 1) ∧
      ∃ r, Graph.shortest_distance_bfs ⟨[⟨"a", "actor", ["b"], [], 0, (0, 0, 0)⟩,
          ⟨"b", "actor", ["a"], [], 0, (0, 0, 0)⟩]⟩ "a" = .ok r ∧
        alookup "b" r = some (some (p.length - 1)) :=
  claim_C1 ⟨[⟨"a", "actor", ["b"], [], 0, (0, 0, 0)⟩,
      ⟨"b", "actor", ["a"], [], 0, (0, 0, 0)⟩]⟩ "a" "b"
    (by decide) (by decide) (by decide)
    ⟨["a", "b"], PathTo.snoc PathTo.base (by decide)⟩ (by decide)

/-- Counterexample to C1 as stated: on a single-vertex graph the start
trivially reaches itself and shortest_path_bfs returns the one-element path,
but the distance mapping excludes the start, so no entry exists for the
target and the claimed equality has no value to hold of. -/
theorem claim_C1_counterexample :
    Reaches ⟨[⟨"a", "actor", [], [], 0, (0, 0, 0)⟩]⟩ "a" "a" ∧
    Graph.shortest_path_bfs ⟨[⟨"a", "actor", [], [], 0, (0, 0, 0)⟩]⟩ "a" "a"
      = .ok ["a"] ∧
    ∃ r, Graph.shortest_distance_bfs ⟨[⟨"a", "actor", [], [], 0, (0, 0, 0)⟩]⟩ "a"
        = .ok r ∧ alookup "a" r = none :=
  ⟨⟨["a"], PathTo.base⟩, rfl, [], rfl, rfl⟩

/-- Claim C3: whenever both the unfiltered and the filtered search return a
non-empty path between the same present endpoints, the filtered path is never
shorter than the unfiltered one. -/
theorem claim_C3 (g : Graph) (s t key : String) (thresholds : Rat × Rat)
    (movies : List (String × MovieRec)) (hwf : g.WF)
    (hkey : key = "release date" ∨ key = "rating")
    (hs : (g.findV s).isSome) (ht : (g.findV t).isSome)
    (p pf : List String)
    (hp : g.shortest_path_bfs s t = .ok p) (hpne : p ≠ [])
    (hpf : g.shortest_path_bfs_filtered (s, t) key thresholds movies = .ok pf)
    (hpfne : pf ≠ []) :
    p.length ≤ pf.length := by
  have hpath : PathTo g s pf t :=
    shortest_path_bfs_filtered_sound g (s, t) key thresholds movies hwf.2 hpf hpfne
  obtain ⟨r, hrun, hcase⟩ := shortest_path_bfs_run g s t hwf hs ht
  rw [hp] at hrun
  injection hrun with hrun
  subst hrun
  rcases hcase with ⟨hnil, -⟩ | ⟨-, hmin⟩
  · exact absurd hnil hpne
  · exact hmin pf hpath

/-- Witness for C3 at a concrete input: two actors sharing a movie whose
rating passes the thresholds, so both searches return the same 2-path. -/
theorem claim_C3_witness :
    (["a", "b"] : List String).length ≤ (["a", "b"] : List String).length :=
  claim_C3 ⟨[⟨"a", "actor", ["b"], ["m"], 0, (0, 0, 0)⟩,
      ⟨"b", "actor", ["a"], ["m"], 0, (0, 0, 0)⟩]⟩ "a" "b" "rating" (0, 10)
    [("m", ([], (2000, 0, 5)))] (by decide) (Or.inr rfl)
    (by decide) (by decide) ["a", "b"] ["a", "b"] rfl (by decide) rfl (by decide)

/-- Claim C4: shortest_path_bfs raises ValueError exactly when an endpoint is
absent; with both present and no connecting path it returns the empty list
normally. -/
theorem claim_C4 (g : Graph) (s t : String) :
    (¬ ((g.findV s).isSome ∧ (g.findV t).isSome) →
      g.shortest_path_bfs s t = .error .valueError) ∧
    (g.WF → (g.findV s).isSome → (g.findV t).isSome → ¬ Reaches g s t →
      g.shortest_path_bfs s t = .ok []) := by
  constructor
  · intro h
    unfold Graph.shortest_path_bfs
    rw [if_neg h]
  · intro hwf hs ht hnr
    obtain ⟨r, hrun, hcase⟩ := shortest_path_bfs_run g s t hwf hs ht
    rcases hcase with ⟨hnil, -⟩ | ⟨hpath, -⟩
    · rw [hrun, hnil]
    · exact absurd ⟨r, hpath⟩ hnr

/-- Witness for C4 at concrete inputs: an empty graph for the ValueError leg
and two isolated vertices for the empty-path leg. -/
theorem claim_C4_witness :
    Graph.shortest_path_bfs (⟨[]⟩ : Graph) "a" "b" = .error .valueError ∧
    Graph.shortest_path_bfs ⟨[⟨"a", "actor", [], [], 0, (0, 0, 0)⟩,
      ⟨"b", "actor", [], [], 0, (0, 0, 0)⟩]⟩ "a" "b" = .ok [] :=
  ⟨(claim_C4 ⟨[]⟩ "a" "b").1 (by decide),
   (claim_C4 ⟨[⟨"a", "actor", [], [], 0, (0, 0, 0)⟩,
       ⟨"b", "actor", [], [], 0, (0, 0, 0)⟩]⟩ "a" "b").2
     (by decide) (by decide) (by decide)
     (not_reaches_isolated _ "a" "b" (by decide) (by decide))⟩

/-- Claim C5 (amended: the KeyError leg also needs the search to examine an
edge — start distinct from target and the start vertex having a neighbour
other than itself): an absent endpoint yields ValueError; with both present
and an unrecognized attribute key, the first filtered edge raises KeyError.
The original claim is wrong when the search never reaches an edge: with
start equal to target the call returns the one-element path and never
consults the key. -/
theorem claim_C5 (g : Graph) (items : String × String) (key : String)
    (thresholds : Rat × Rat) (movies : List (String × MovieRec)) (hwf : g.WF) :
    (¬ ((g.findV items.1).isSome ∧ (g.findV items.2).isSome) →
      g.shortest_path_bfs_filtered items key thresholds movies = .error .valueError) ∧
    (key ≠ "release date" → key ≠ "rating" → items.1 ≠ items.2 →
      ∀ vs, g.findV items.1 = some vs → (g.findV items.2).isSome →
      (∃ w ∈ vs.neighbours, w ≠ items.1) →
      g.shortest_path_bfs_filtered items key thresholds movies = .error .keyError) := by
  constructor
  · intro h
    unfold Graph.shortest_path_bfs_filtered
    rw [if_neg h]
  · intro hk1 hk2 hst vs hvs ht hnb
    exact shortest_path_bfs_filtered_badkey g items key thresholds movies hwf
      hk1 hk2 hvs ht hst hnb

/-- Witness for C5 at concrete inputs: an empty graph for the ValueError leg
and a two-vertex edge with a bogus key for the KeyError leg. -/
theorem claim_C5_witness :
    Graph.shortest_path_bfs_filtered (⟨[]⟩ : Graph) ("a", "b") "bogus" (0, 0) []
      = .error .valueError ∧
    Graph.shortest_path_bfs_filtered ⟨[⟨"a", "actor", ["b"], [], 0, (0, 0, 0)⟩,
        ⟨"b", "actor", ["a"], [], 0, (0, 0, 0)⟩]⟩ ("a", "b") "bogus" (0, 0) []
      = .error .keyError :=
  ⟨(claim_C5 ⟨[]⟩ ("a", "b") "bogus" (0, 0) [] (by decide)).1 (by decide),
   (claim_C5 ⟨[⟨"a", "actor", ["b"], [], 0, (0, 0, 0)⟩,
       ⟨"b", "actor", ["a"], [], 0, (0, 0, 0)⟩]⟩ ("a", "b") "bogus" (0, 0) []
       (by decide)).2 (by decide) (by decide) (by decide)
     ⟨"a", "actor", ["b"], [], 0, (0, 0, 0)⟩ rfl (by decide)
     ⟨"b", by decide, by decide⟩⟩

/-- Counterexample to C5 as stated: both endpoints present (equal), key
unrecognized, yet the call returns a path instead of KeyError because the
target is dequeued before any edge is filtered. -/
theorem claim_C5_counterexample :
    ((Graph.findV ⟨[⟨"a", "actor", [], [], 0, (0, 0, 0)⟩]⟩ "a").isSome ∧
      (Graph.findV ⟨[⟨"a", "actor", [], [], 0, (0, 0, 0)⟩]⟩ "a").isSome) ∧
    "bogus" ≠ "release date" ∧ "bogus" ≠ "rating" ∧
    Graph.shortest_path_bfs_filtered ⟨[⟨"a", "actor", [], [], 0, (0, 0, 0)⟩]⟩
      ("a", "a") "bogus" (0, 0) [] = .ok ["a"] :=
  ⟨⟨rfl, rfl⟩, by decide, by decide, rfl⟩

/-- Claim C6: for a present start, shortest_distance_bfs returns a mapping
whose keys are exactly the graph's vertices other than the start (start
excluded), and every unreachable non-start vertex is present, mapped to the
infinite-distance sentinel. -/
theorem claim_C6 (g : Graph) (s : String) (hwf : g.WF) (hs : (g.findV s).isSome) :
    ∃ r, g.shortest_distance_bfs s = .ok r ∧
      r.map Prod.fst = g.keys.filter (fun k => decide (k ≠ s)) ∧
      (∀ u, u ≠ s → u ∈ g.keys → ¬ Reaches g s u → alookup u r = some none) := by
  obtain ⟨r, hrun, hkeys, -, hun⟩ := shortest_distance_bfs_run g s hwf hs
  exact ⟨r, hrun, hkeys, hun⟩

/-- Witness for C6 at a concrete input: two isolated vertices. -/
theorem claim_C6_witness :
    ∃ r, Graph.shortest_distance_bfs ⟨[⟨"a", "actor", [], [], 0, (0, 0, 0)⟩,
        ⟨"b", "actor", [], [], 0, (0, 0, 0)⟩]⟩ "a" = .ok r ∧
      r.map Prod.fst = (Graph.keys ⟨[⟨"a", "actor", [], [], 0, (0, 0, 0)⟩,
        ⟨"b", "actor", [], [], 0, (0, 0, 0)⟩]⟩).filter (fun k => decide (k ≠ "a")) ∧
      (∀ u, u ≠ "a" → u ∈ Graph.keys ⟨[⟨"a", "actor", [], [], 0, (0, 0, 0)⟩,
          ⟨"b", "actor", [], [], 0, (0, 0, 0)⟩]⟩ →
        ¬ Reaches ⟨[⟨"a", "actor", [], [], 0, (0, 0, 0)⟩,
          ⟨"b", "actor", [], [], 0, (0, 0, 0)⟩]⟩ "a" u → alookup u r = some none) :=
  claim_C6 ⟨[⟨"a", "actor", [], [], 0, (0, 0, 0)⟩,
    ⟨"b", "actor", [], [], 0, (0, 0, 0)⟩]⟩ "a" (by decide) (by decide)
